import Mathlib

/-!
Verification of the envelope streaming core of a pipeline consumer client.

The development shallowly embeds the Go sources:
* the data model (`Envelope`, `Message`, `EnvelopeOrError`, `ReceiveRequest`),
* the model of `encoding/json` marshalling restricted to these structs,
* the fused envelope stream / heartbeat watchdog (`envelopeStream`,
  `decodeEnvelopes`, `decodeEnvelope`) as a timed event-step machine,
* both `reconnectStream` supervisor variants as event-step machines.

Goroutine scheduling, channel readiness and timer firings are modelled as
externally chosen event traces; a trace validity predicate captures exactly the
schedules the Go runtime could produce (channel enabledness, monotone wall
clock, `time.After` firing no earlier than its deadline).
-/

namespace Pipeline

/-- Go `error` values circulating in the core: `io.EOF`, a plain error with a
message (e.g. a `json` syntax error), or the result of
`fmt.Errorf("<p>: %v", e)` which wraps `e` under prefix `p` and is never
identical to `io.EOF`. -/
inductive GoError where
  | eof
  | msg (s : String)
  | wrap (p : String) (e : GoError)
deriving DecidableEq

/-- Go struct `Message` (field `Value` is `json.RawMessage`, i.e. raw bytes,
modelled as a string). -/
structure Message where
  ImsOrg : String
  Key : String
  Locations : List String
  Source : String
  Value : String
deriving DecidableEq

/-- The zero `Message`, as produced by `var m Message` in Go. -/
def zeroMessage : Message := ⟨"", "", [], "", ""⟩

/-- Go struct `Envelope` (field `Type` is renamed `type` because `Type` is a
Lean keyword; `CreateTime` is `uint64`, modelled as `Nat`). -/
structure Envelope where
  type : String
  Partition : Int
  Key : String
  Offset : Int
  Topic : String
  CreateTime : Nat
  Message : Message
  SyncMarker : String
deriving DecidableEq

/-- The zero `Envelope`, as produced by `new(Envelope)` / `var e Envelope`. -/
def zeroEnvelope : Envelope := ⟨"", 0, "", 0, "", 0, zeroMessage, ""⟩

/-- Go struct `EnvelopeOrError`; nil pointers are `none`. -/
structure EnvelopeOrError where
  Envelope : Option Envelope
  Err : Option GoError
deriving DecidableEq

/-- The zero `EnvelopeOrError` (`var envelope EnvelopeOrError`). -/
def zeroUnit : EnvelopeOrError := ⟨none, none⟩

/-- The tagged-union invariant of `EnvelopeOrError`: exactly one of the two
fields is set. -/
def oneOf (u : EnvelopeOrError) : Prop :=
  (u.Envelope.isSome ∧ u.Err = none) ∨ (u.Envelope = none ∧ u.Err.isSome)

/-! ## The `encoding/json` model for `Message` and `Envelope`

A marshalled `Message` is a JSON object whose values are strings, string
arrays, or a raw embedded JSON value; a marshalled `Envelope` is a JSON object
whose values are strings, integers, or the nested message object.  JSON
objects are association lists in field order (`encoding/json` emits struct
fields in declaration order). -/

/-- A JSON value occurring in a marshalled `Message` object. -/
inductive MsgVal where
  | str (s : String)
  | strList (xs : List String)
  | raw (s : String)
deriving DecidableEq

/-- A JSON value occurring in a marshalled `Envelope` object. -/
inductive EnvVal where
  | str (s : String)
  | int (n : Int)
  | nat (n : Nat)
  | obj (fields : List (String × MsgVal))
deriving DecidableEq

/-- A JSON envelope object, as an association list in field order. -/
abbrev EnvJson := List (String × EnvVal)

/-- `json.Marshal` on `Message`: every field except `Value` carries
`omitempty`, so empty strings and empty lists are omitted; `value` is always
present. -/
def marshalMessage (m : Message) : List (String × MsgVal) :=
  (if m.ImsOrg = "" then [] else [("imsOrg", MsgVal.str m.ImsOrg)]) ++
  (if m.Key = "" then [] else [("key", MsgVal.str m.Key)]) ++
  (if m.Locations = [] then [] else [("locations", MsgVal.strList m.Locations)]) ++
  (if m.Source = "" then [] else [("source", MsgVal.str m.Source)]) ++
  [("value", MsgVal.raw m.Value)]

/-- `json.Unmarshal` of a JSON object into `Message`: fields are assigned in
object order into the zero value; keys that match no struct tag are ignored. -/
def unmarshalMessage (fs : List (String × MsgVal)) : Message :=
  fs.foldl (fun m f =>
    match f with
    | ("imsOrg", MsgVal.str s) => { m with ImsOrg := s }
    | ("key", MsgVal.str s) => { m with Key := s }
    | ("locations", MsgVal.strList xs) => { m with Locations := xs }
    | ("source", MsgVal.str s) => { m with Source := s }
    | ("value", MsgVal.raw s) => { m with Value := s }
    | _ => m) zeroMessage

/-- `json.Marshal` on `Envelope`: no field carries `omitempty`, so all eight
fields are always emitted, in struct order, under their `json:"..."` tags. -/
def marshalEnvelope (e : Envelope) : EnvJson :=
  [("envelopeType", EnvVal.str e.type),
   ("partition", EnvVal.int e.Partition),
   ("key", EnvVal.str e.Key),
   ("offset", EnvVal.int e.Offset),
   ("topic", EnvVal.str e.Topic),
   ("createTime", EnvVal.nat e.CreateTime),
   ("pipelineMessage", EnvVal.obj (marshalMessage e.Message)),
   ("syncMarker", EnvVal.str e.SyncMarker)]

/-- `json.Unmarshal` of a JSON object into `Envelope` (the successful case of
`decoder.Decode(&envelope)` in `decodeEnvelope`). -/
def unmarshalEnvelope (fs : EnvJson) : Envelope :=
  fs.foldl (fun e f =>
    match f with
    | ("envelopeType", EnvVal.str s) => { e with type := s }
    | ("partition", EnvVal.int n) => { e with Partition := n }
    | ("key", EnvVal.str s) => { e with Key := s }
    | ("offset", EnvVal.int n) => { e with Offset := n }
    | ("topic", EnvVal.str s) => { e with Topic := s }
    | ("createTime", EnvVal.nat n) => { e with CreateTime := n }
    | ("pipelineMessage", EnvVal.obj mfs) => { e with Message := unmarshalMessage mfs }
    | ("syncMarker", EnvVal.str s) => { e with SyncMarker := s }
    | _ => e) zeroEnvelope

lemma unmarshalMessage_marshalMessage (m : Message) :
    unmarshalMessage (marshalMessage m) = m := by
  obtain ⟨a, b, c, d, v⟩ := m
  simp only [marshalMessage, unmarshalMessage]
  by_cases ha : a = "" <;> by_cases hb : b = "" <;> by_cases hc : c = ([] : List String) <;>
    by_cases hd : d = "" <;>
    simp_all [zeroMessage]

lemma unmarshalEnvelope_marshalEnvelope (e : Envelope) :
    unmarshalEnvelope (marshalEnvelope e) = e := by
  obtain ⟨t, p, k, o, tp, ct, m, sm⟩ := e
  simp [marshalEnvelope, unmarshalEnvelope, unmarshalMessage_marshalMessage]

/-! ## The decoder (`decodeEnvelopes` / `decodeEnvelope`)

`json.NewDecoder(body)` over a byte stream is abstracted by the sequence of
outcomes of successive `Decode` calls: a number of successfully parsed JSON
envelope objects followed by either clean end of input (`io.EOF`) or a
malformed token (any other error).  After the first error the decoder is never
observed again by `envelopeStream` (the error or `io.EOF` terminates the main
loop, whose deferred `cancel()` stops the `decodeEnvelopes` goroutine), so the
tail outcome is all the model needs. -/

/-- What follows the well-formed objects of a byte stream. -/
inductive Tail where
  | eof
  | bad (err : String)
deriving DecidableEq

/-- A byte stream, abstracted as the parse outcomes of `json.NewDecoder`. -/
structure ByteStream where
  parses : List EnvJson
  tail : Tail
deriving DecidableEq

/-- The error returned by `decoder.Decode` once the objects are exhausted. -/
def Tail.err : Tail → GoError
  | .eof => .eof
  | .bad m => .msg m

/-- The `n`-th `EnvelopeOrError` that `decodeEnvelopes` offers on its channel:
`decodeEnvelope` returns `(&envelope, nil)` on success and `(nil, err)` on
failure, and `decodeEnvelopes` sends `EnvelopeOrError{Envelope: envelope,
Err: err}` each iteration. -/
def decodeUnit (bs : ByteStream) (n : Nat) : EnvelopeOrError :=
  match bs.parses.get? n with
  | some j => ⟨some (unmarshalEnvelope j), none⟩
  | none => ⟨none, some bs.tail.err⟩

/-! ## `ReceiveRequest` and its effective options -/

/-- One second, in nanoseconds (Go `time.Duration` is an `int64` nanosecond
count). -/
def second : Int := 1000000000

/-- Go struct `ReceiveRequest`, restricted to the duration options the core
uses (`SyncInterval`, filters and `Reset` only affect the request URL). -/
structure ReceiveRequest where
  ReconnectionDelay : Int
  PingTimeout : Int
deriving DecidableEq

/-- Method `(*ReceiveRequest).reconnectionDelay`: the effective delay passed
by `Receive` to `reconnectStream`. -/
def ReceiveRequest.reconnectionDelay (r : ReceiveRequest) : Int :=
  if r.ReconnectionDelay > 0 then r.ReconnectionDelay else 5 * second

/-- Method `(*ReceiveRequest).pingTimeout`: the effective heartbeat timeout
passed by `Receive` to `envelopeStream`. -/
def ReceiveRequest.pingTimeout (r : ReceiveRequest) : Int :=
  if r.PingTimeout > 0 then r.PingTimeout else 90 * second

/-! ## The fused envelope stream / heartbeat watchdog (`envelopeStream`)

The goroutine body of `envelopeStream(parent, body, pingTimeout)` is a loop
around a four-way `select`.  Its mutable state is `envelopeReady`, `envelope`,
the absolute `deadline` (a `time.Time`; the zero value is modelled as `none`
since the zero time is before every actual wall-clock instant), and the
absolute instant at which the current `deadlineCh = time.After(...)` timer
fires.  Wall-clock time is a `Nat`; the goroutine starts at time `0`, so the
initial `time.After(pingTimeout)` fires at `pingTimeout`.

Each `select` resolution is an externally scheduled event carrying the wall
clock `now` at which it happens:

* `recv u now` — `envelope = <-envelopeCh` delivered `u` (possible only while
  `envelopeReady` is false, i.e. `inCh` non-nil);
* `send now` — `outCh <- envelope` completed (possible only while
  `envelopeReady` is true, i.e. `outCh` non-nil);
* `fire now` — the `<-deadlineCh` case ran (possible only at `now` at or after
  the timer's firing instant);
* `cancel now` — `<-ctx.Done()` ran.

Termination of the goroutine runs the deferred `close(out)` and
`body.Close()`: in every run below, `stopped = true` means the output channel
was closed and the transport body was closed. -/

/-- The mutable state of the `envelopeStream` goroutine. -/
structure ESState where
  envelopeReady : Bool
  envelope : EnvelopeOrError
  deadline : Option Nat
  deadlineFire : Nat
deriving DecidableEq

/-- The state at the top of the first loop iteration. -/
def esInit (pingTimeout : Nat) : ESState :=
  ⟨false, zeroUnit, none, pingTimeout⟩

/-- One scheduled `select` resolution. -/
inductive ESEvent where
  | recv (u : EnvelopeOrError) (now : Nat)
  | send (now : Nat)
  | fire (now : Nat)
  | cancel (now : Nat)
deriving DecidableEq

/-- The wall-clock instant of an event. -/
def ESEvent.time : ESEvent → Nat
  | .recv _ now => now
  | .send now => now
  | .fire now => now
  | .cancel now => now

/-- Go `deadline.Before(now)`: the zero time is before every actual instant. -/
def deadlineBefore : Option Nat → Nat → Bool
  | none, _ => true
  | some d, now => d < now

/-- Whether a unit holds a PING-typed envelope
(`envelope.Envelope != nil && envelope.Envelope.Type == "PING"`). -/
def isPing (u : EnvelopeOrError) : Bool :=
  match u.Envelope with
  | some e => e.type == "PING"
  | none => false

/-- Whether a unit holds an END_OF_STREAM-typed envelope.  In the code the
check `envelope.Envelope.Type == "END_OF_STREAM"` is reached only with
`envelope.Err == nil`, and every unit produced by `decodeEnvelope` with a nil
error has a non-nil envelope, so the `none` case is unreachable there. -/
def isEOS (u : EnvelopeOrError) : Bool :=
  match u.Envelope with
  | some e => e.type == "END_OF_STREAM"
  | none => false

/-- Result of one `select` resolution: continue with a new state, or return
from the goroutine (running the defers); either may emit one unit on `out`. -/
inductive ESStep where
  | cont (s : ESState) (em : Option EnvelopeOrError)
  | stop (em : Option EnvelopeOrError)
deriving DecidableEq

/-- One `select` resolution of the `envelopeStream` loop, transcribing the
four cases of the `select` statement. -/
def esStep (pt : Nat) (s : ESState) : ESEvent → ESStep
  | .recv u now =>
    if u.Err = some GoError.eof then
      ESStep.stop none
    else
      ESStep.cont
        { s with
          envelopeReady := true
          envelope := u
          deadline := if isPing u then some (now + pt) else s.deadline }
        none
  | .send _ =>
    if s.envelope.Err ≠ none then
      ESStep.stop (some s.envelope)
    else if isEOS s.envelope then
      ESStep.stop (some s.envelope)
    else
      ESStep.cont { s with envelopeReady := false } (some s.envelope)
  | .fire now =>
    if deadlineBefore s.deadline now then
      ESStep.stop none
    else
      ESStep.cont { s with deadlineFire := s.deadline.getD 0 } none
  | .cancel _ => ESStep.stop none

/-- Whether an event is a `select` case the Go runtime could actually resolve
in state `s` when the previous event happened at `tmin`: channel cases demand
the matching channel be non-nil, the timer case demands the timer to have
fired, and wall time never decreases. -/
def esEnabled (s : ESState) (tmin : Nat) : ESEvent → Bool
  | .recv _ now => !s.envelopeReady && tmin ≤ now
  | .send now => s.envelopeReady && tmin ≤ now
  | .fire now => s.deadlineFire ≤ now && tmin ≤ now
  | .cancel now => tmin ≤ now

/-- Validity of an event trace: every event is enabled when reached, and no
event follows the goroutine's return. -/
def esValid (pt : Nat) (s : ESState) (tmin : Nat) : List ESEvent → Bool
  | [] => true
  | ev :: evs =>
    esEnabled s tmin ev &&
      match esStep pt s ev with
      | .cont s' _ => esValid pt s' ev.time evs
      | .stop _ => evs.isEmpty

/-- The state after a trace, or `none` if the goroutine returned. -/
def esExec (pt : Nat) (s : ESState) : List ESEvent → Option ESState
  | [] => some s
  | ev :: evs =>
    match esStep pt s ev with
    | .cont s' _ => esExec pt s' evs
    | .stop _ => none

/-- Observable outcome of a trace: the units emitted on `out`, and whether the
goroutine returned (which runs the deferred `cancel()`, `close(out)` and
`body.Close()`). -/
structure ESRun where
  outputs : List EnvelopeOrError
  stopped : Bool
deriving DecidableEq

/-- Run a trace, collecting emissions. -/
def esRun (pt : Nat) (s : ESState) : List ESEvent → ESRun
  | [] => ⟨[], false⟩
  | ev :: evs =>
    match esStep pt s ev with
    | .cont s' em =>
      let r := esRun pt s' evs
      ⟨em.toList ++ r.outputs, r.stopped⟩
    | .stop em => ⟨em.toList, true⟩

/-- The latest wall-clock bound after processing a trace. -/
def tminAfter (tmin : Nat) : List ESEvent → Nat
  | [] => tmin
  | ev :: evs => tminAfter ev.time evs

/-- The time of the last PING-typed envelope received in a trace, starting
from a previous such time `lp`. -/
def lastPing (lp : Option Nat) : List ESEvent → Option Nat
  | [] => lp
  | ESEvent.recv u now :: evs => lastPing (if isPing u then some now else lp) evs
  | _ :: evs => lastPing lp evs

/-- The units received from the decoder channel along a trace. -/
def recvPayloads : List ESEvent → List EnvelopeOrError
  | [] => []
  | ESEvent.recv u _ :: evs => u :: recvPayloads evs
  | _ :: evs => recvPayloads evs

/-! ### Composition lemmas for envelope-stream traces -/

lemma esValid_append_of_exec {pt : Nat} :
    ∀ (xs : List ESEvent) {s s' : ESState} (tmin : Nat) (ys : List ESEvent),
      esExec pt s xs = some s' →
      (esValid pt s tmin (xs ++ ys) = true ↔
        esValid pt s tmin xs = true ∧ esValid pt s' (tminAfter tmin xs) ys = true)
  | [], s, s', tmin, ys, h => by
    simp only [esExec] at h
    cases h
    simp [esValid, tminAfter]
  | ev :: xs, s, s', tmin, ys, h => by
    simp only [esExec] at h
    cases hstep : esStep pt s ev with
    | cont s1 em =>
      simp only [hstep] at h
      simp only [List.cons_append, esValid, hstep, tminAfter, List.append_eq,
        Bool.and_eq_true]
      rw [esValid_append_of_exec xs ev.time ys h]
      tauto
    | stop em => simp [hstep] at h

lemma esRun_append_of_exec {pt : Nat} :
    ∀ (xs : List ESEvent) {s s' : ESState} (ys : List ESEvent),
      esExec pt s xs = some s' →
      esRun pt s (xs ++ ys) =
        ⟨(esRun pt s xs).outputs ++ (esRun pt s' ys).outputs, (esRun pt s' ys).stopped⟩
  | [], s, s', ys, h => by
    simp only [esExec] at h
    cases h
    simp [esRun]
  | ev :: xs, s, s', ys, h => by
    simp only [esExec] at h
    cases hstep : esStep pt s ev with
    | cont s1 em =>
      simp only [hstep] at h
      simp only [List.cons_append, esRun, hstep, List.append_eq]
      rw [esRun_append_of_exec xs ys h]
      simp [esRun]
    | stop em => simp [hstep] at h

lemma esRun_stopped_iff_exec {pt : Nat} :
    ∀ (evs : List ESEvent) (s : ESState),
      (esRun pt s evs).stopped = false ↔ (esExec pt s evs).isSome
  | [], s => by simp [esRun, esExec]
  | ev :: evs, s => by
    cases hstep : esStep pt s ev with
    | cont s1 em =>
      simp only [esRun, esExec, hstep]
      exact esRun_stopped_iff_exec evs s1
    | stop em => simp [esRun, esExec, hstep]

/-! ### The deadline invariant

Along every valid, non-terminated trace the absolute deadline is exactly
`pingTimeout` past the last PING received (the zero time if none was), the
armed timer never fires later than that deadline, and the last PING lies in
the past. -/

lemma esDeadline_invariant {pt : Nat} :
    ∀ (evs : List ESEvent) (s : ESState) (tmin : Nat) (lp : Option Nat) (s' : ESState),
      esValid pt s tmin evs = true →
      esExec pt s evs = some s' →
      s.deadline = lp.map (· + pt) →
      s.deadlineFire ≤ lp.getD 0 + pt →
      lp.getD 0 ≤ tmin →
      s'.deadline = (lastPing lp evs).map (· + pt) ∧
        s'.deadlineFire ≤ (lastPing lp evs).getD 0 + pt ∧
        (lastPing lp evs).getD 0 ≤ tminAfter tmin evs := by
  intro evs
  induction evs with
  | nil =>
    intro s tmin lp s' hv hx hd hf hl
    simp only [esExec] at hx
    cases hx
    exact ⟨hd, hf, hl⟩
  | cons ev evs ih =>
    intro s tmin lp s' hv hx hd hf hl
    cases ev with
    | recv u now =>
      simp only [esValid, esEnabled, Bool.and_eq_true, decide_eq_true_eq] at hv
      obtain ⟨⟨_, hnow⟩, hv⟩ := hv
      simp only [esExec, esStep] at hx
      simp only [esStep] at hv
      by_cases heof : u.Err = some GoError.eof
      · simp [heof] at hx
      · simp only [if_neg heof] at hx hv
        simp only [ESEvent.time] at hv
        simp only [lastPing, tminAfter, ESEvent.time]
        by_cases hping : isPing u
        · simp only [hping, if_true]
          exact ih _ now (some now) s' hv hx (by simp [hping]) (by
            simp only [Option.getD_some]
            calc s.deadlineFire ≤ lp.getD 0 + pt := hf
              _ ≤ tmin + pt := by omega
              _ ≤ now + pt := by omega) (by simp)
        · simp only [hping, if_false, Bool.false_eq_true, if_neg]
          exact ih _ now lp s' hv hx (by simp [hping, hd]) hf (le_trans hl hnow)
    | send now =>
      simp only [esValid, esEnabled, Bool.and_eq_true, decide_eq_true_eq] at hv
      obtain ⟨⟨_, hnow⟩, hv⟩ := hv
      simp only [esExec, esStep] at hx
      simp only [esStep] at hv
      by_cases herr : s.envelope.Err ≠ none
      · simp [herr] at hx
      · simp only [if_neg herr] at hx hv
        by_cases heos : isEOS s.envelope
        · simp [heos] at hx
        · simp only [heos, Bool.false_eq_true, if_neg, if_false] at hx hv
          simp only [ESEvent.time] at hv
          simp only [lastPing, tminAfter, ESEvent.time]
          exact ih _ now lp s' hv hx hd hf (le_trans hl hnow)
    | fire now =>
      simp only [esValid, esEnabled, Bool.and_eq_true, decide_eq_true_eq] at hv
      obtain ⟨⟨_, hnow⟩, hv⟩ := hv
      simp only [esExec, esStep] at hx
      simp only [esStep] at hv
      by_cases hbef : deadlineBefore s.deadline now = true
      · simp [hbef] at hx
      · simp only [Bool.not_eq_true] at hbef
        simp only [hbef, Bool.false_eq_true, if_neg, if_false] at hx hv
        simp only [ESEvent.time] at hv
        simp only [lastPing, tminAfter, ESEvent.time]
        cases lp with
        | none => simp [hd, deadlineBefore] at hbef
        | some l =>
          simp only [Option.map_some', Option.getD_some] at hd hf hl
          refine ih _ now (some l) s' hv hx (by simpa using hd) ?_ (le_trans hl hnow)
          simp only [hd, Option.getD_some, le_refl]
    | cancel now =>
      simp only [esValid, esEnabled, Bool.and_eq_true, decide_eq_true_eq] at hv
      obtain ⟨_, hv⟩ := hv
      simp [esExec, esStep] at hx

/-! ### Safety of emissions

A unit is emitted in the `outCh <- envelope` case only; the loop continues
after the send exactly when the unit carries no error and is not
END_OF_STREAM, so an error or END_OF_STREAM unit is necessarily the last
emission and is followed by the goroutine's return. -/

lemma esStep_cont_some {pt : Nat} {s s1 : ESState} {u0 : EnvelopeOrError} :
    ∀ ev, esStep pt s ev = ESStep.cont s1 (some u0) →
      u0 = s.envelope ∧ u0.Err = none ∧ isEOS u0 = false := by
  intro ev h
  cases ev with
  | recv u now => simp only [esStep] at h; split at h <;> simp_all
  | send now =>
    simp only [esStep] at h
    split at h
    · simp_all
    · split at h <;> simp_all
  | fire now => simp only [esStep] at h; split at h <;> simp_all
  | cancel now => simp_all [esStep]

lemma esRun_dropLast_ok {pt : Nat} :
    ∀ (evs : List ESEvent) (s : ESState),
      ∀ u ∈ (esRun pt s evs).outputs.dropLast, u.Err = none ∧ isEOS u = false := by
  intro evs
  induction evs with
  | nil => intro s u hu; simp [esRun] at hu
  | cons ev evs ih =>
    intro s u hu
    cases hstep : esStep pt s ev with
    | stop em =>
      simp only [esRun, hstep] at hu
      cases em <;> simp [List.dropLast] at hu
    | cont s1 em =>
      simp only [esRun, hstep] at hu
      cases em with
      | none => simpa using ih s1 u (by simpa using hu)
      | some u0 =>
        obtain ⟨hu0, herr, heos⟩ := esStep_cont_some ev hstep
        cases hr : (esRun pt s1 evs).outputs with
        | nil => simp [hr, List.dropLast] at hu
        | cons v vs =>
          simp only [hr, Option.toList_some, List.cons_append, List.nil_append,
            List.dropLast, List.mem_cons] at hu
          rcases hu with rfl | hu
          · exact ⟨herr, heos⟩
          · exact ih s1 u (by simp [hr, List.dropLast]; exact hu)

lemma esRun_not_stopped_ok {pt : Nat} :
    ∀ (evs : List ESEvent) (s : ESState),
      (esRun pt s evs).stopped = false →
      ∀ u ∈ (esRun pt s evs).outputs, u.Err = none ∧ isEOS u = false := by
  intro evs
  induction evs with
  | nil => intro s _ u hu; simp [esRun] at hu
  | cons ev evs ih =>
    intro s hst u hu
    cases hstep : esStep pt s ev with
    | stop em => simp [esRun, hstep] at hst
    | cont s1 em =>
      simp only [esRun, hstep] at hst hu
      rcases List.mem_append.1 hu with hu | hu
      · cases em with
        | none => simp at hu
        | some u0 =>
          obtain ⟨hu0, herr, heos⟩ := esStep_cont_some ev hstep
          simp only [Option.toList_some, List.mem_singleton] at hu
          subst hu
          exact ⟨herr, heos⟩
      · exact ih s1 hst u hu

/-- Every unit the envelope stream emits is either the held unit of the start
state (possible only if a unit is already pending) or one of the units
received from the decoder: the stream forwards and never fabricates units. -/
lemma esRun_outputs_origin {pt : Nat} :
    ∀ (evs : List ESEvent) (s : ESState) (tmin : Nat),
      esValid pt s tmin evs = true →
      ∀ u ∈ (esRun pt s evs).outputs,
        (s.envelopeReady = true ∧ u = s.envelope) ∨ u ∈ recvPayloads evs := by
  intro evs
  induction evs with
  | nil => intro s tmin _ u hu; simp [esRun] at hu
  | cons ev evs ih =>
    intro s tmin hv u hu
    simp only [esValid, Bool.and_eq_true] at hv
    obtain ⟨hen, hv⟩ := hv
    cases hstep : esStep pt s ev with
    | stop em =>
      simp only [esRun, hstep] at hu
      cases em with
      | none => simp at hu
      | some u0 =>
        simp only [Option.toList_some, List.mem_singleton] at hu
        subst hu
        cases ev with
        | recv u1 now => simp only [esStep] at hstep; split at hstep <;> simp_all
        | send now =>
          simp only [esEnabled, Bool.and_eq_true] at hen
          simp only [esStep] at hstep
          left
          refine ⟨by simpa using hen.1, ?_⟩
          split at hstep
          · simp_all
          · split at hstep <;> simp_all
        | fire now => simp only [esStep] at hstep; split at hstep <;> simp_all
        | cancel now => simp_all [esStep]
    | cont s1 em =>
      rw [hstep] at hv
      simp only [esRun, hstep] at hu
      rcases List.mem_append.1 hu with hu | hu
      · cases em with
        | none => simp at hu
        | some u0 =>
          obtain ⟨hu0, _, _⟩ := esStep_cont_some ev hstep
          simp only [Option.toList_some, List.mem_singleton] at hu
          subst hu
          subst hu0
          cases ev with
          | recv u1 now => simp only [esStep] at hstep; split at hstep <;> simp_all
          | send now =>
            simp only [esEnabled, Bool.and_eq_true] at hen
            exact Or.inl ⟨by simpa using hen.1, rfl⟩
          | fire now => simp only [esStep] at hstep; split at hstep <;> simp_all
          | cancel now => simp_all [esStep]
      · rcases ih s1 ev.time hv u hu with ⟨hrdy, hue⟩ | hmem
        · cases ev with
          | recv u1 now =>
            simp only [esStep] at hstep
            split at hstep
            · simp_all
            · injection hstep with h1 h2
              subst h1
              right
              simp only [recvPayloads, List.mem_cons]
              exact Or.inl (by simpa using hue)
          | send now =>
            simp only [esStep] at hstep
            split at hstep
            · simp_all
            · split at hstep
              · simp_all
              · cases hstep; simp at hrdy
          | fire now =>
            simp only [esStep] at hstep
            split at hstep
            · simp_all
            · cases hstep
              exact Or.inl ⟨by simpa using hrdy, by simpa using hue⟩
          | cancel now => simp_all [esStep]
        · right
          cases ev <;> simp [recvPayloads, hmem]

/-! ### Canonical prompt-consumer schedules

`canonFwd us` is the schedule in which the decoder delivers each unit and the
consumer immediately drains it, all at wall-clock instant 0 (so the watchdog
timer never fires). -/

/-- Alternating receive/forward schedule for a list of units. -/
def canonFwd : List EnvelopeOrError → List ESEvent
  | [] => []
  | u :: us => ESEvent.recv u 0 :: ESEvent.send 0 :: canonFwd us

lemma tminAfter_canonFwd : ∀ us : List EnvelopeOrError, tminAfter 0 (canonFwd us) = 0
  | [] => rfl
  | _ :: us => tminAfter_canonFwd us

lemma canonFwd_spec :
    ∀ (us : List EnvelopeOrError) (pt : Nat) (s : ESState),
      s.envelopeReady = false →
      (∀ u ∈ us, u.Err = none ∧ isEOS u = false) →
      ∃ s', esExec pt s (canonFwd us) = some s' ∧
        esValid pt s 0 (canonFwd us) = true ∧
        esRun pt s (canonFwd us) = ⟨us, false⟩ ∧
        s'.envelopeReady = false ∧ s'.deadlineFire = s.deadlineFire := by
  intro us
  induction us with
  | nil =>
    intro pt s hready _
    exact ⟨s, rfl, rfl, rfl, hready, rfl⟩
  | cons u us ih =>
    intro pt s hready hgood
    obtain ⟨herr, heos⟩ := hgood u (by simp)
    have hgood' : ∀ v ∈ us, v.Err = none ∧ isEOS v = false := fun v hv => hgood v (by simp [hv])
    obtain ⟨s', hx, hv, hr, hrdy', hdf⟩ :=
      ih pt
        ⟨false, u, if isPing u then some (0 + pt) else s.deadline, s.deadlineFire⟩
        rfl hgood'
    have hne : ¬ u.Err = some GoError.eof := by simp [herr]
    refine ⟨s', ?_, ?_, ?_, hrdy', by simpa using hdf⟩
    · obtain ⟨a, b, c, d⟩ := s
      simp [canonFwd, esExec, esStep, hne, herr, heos]
      simpa using hx
    · obtain ⟨a, b, c, d⟩ := s
      simp only [ESState.envelopeReady] at hready
      subst hready
      simp [canonFwd, esValid, esEnabled, esStep, ESEvent.time, hne, herr, heos]
      simpa using hv
    · obtain ⟨a, b, c, d⟩ := s
      simp [canonFwd, esRun, esStep, hne, herr, heos]
      simp only [esRun] at hr
      simp_all

/-! ### A stream that PINGs every T/2 with heartbeat timeout T = 2·u

The schedule delivers (and the consumer drains) a PING at every multiple of
`u`; the watchdog timer, which fires at the current deadline, is serviced at
every even multiple, where it re-arms rather than terminating because the
deadline has been pushed ahead. -/

/-- A PING envelope (only the type matters to the watchdog). -/
def pingEnvelope : Envelope := { zeroEnvelope with type := "PING" }

/-- A decoded PING unit. -/
def pingUnit : EnvelopeOrError := ⟨some pingEnvelope, none⟩

lemma pingUnit_Err : pingUnit.Err = none := rfl

lemma isPing_pingUnit : isPing pingUnit = true := rfl

lemma isEOS_pingUnit : isEOS pingUnit = false := rfl

/-- `k` rounds of the PING-every-`u` schedule starting at time `t`, with the
timer serviced each `2·u`. -/
def pingTraceAux (u : Nat) : Nat → Nat → List ESEvent
  | _, 0 => []
  | t, Nat.succ k =>
    ESEvent.recv pingUnit (t + u) :: ESEvent.send (t + u) ::
    ESEvent.recv pingUnit (t + 2 * u) :: ESEvent.send (t + 2 * u) ::
    ESEvent.fire (t + 2 * u) :: pingTraceAux u (t + 2 * u) k

/-- The full PING-every-`u` schedule with heartbeat timeout `2·u`. -/
def pingTrace (u k : Nat) : List ESEvent := pingTraceAux u 0 k

lemma pingTraceAux_spec (u : Nat) :
    ∀ (k t : Nat) (e0 : EnvelopeOrError) (d0 : Option Nat),
      esValid (2 * u) ⟨false, e0, d0, t + 2 * u⟩ t (pingTraceAux u t k) = true ∧
      (esRun (2 * u) ⟨false, e0, d0, t + 2 * u⟩ (pingTraceAux u t k)).stopped = false := by
  intro k
  induction k with
  | zero => intro t e0 d0; exact ⟨rfl, rfl⟩
  | succ k ih =>
    intro t e0 d0
    have hbef : ¬ (t + 2 * u + 2 * u < t + 2 * u) := by omega
    obtain ⟨ihv, ihr⟩ := ih (t + 2 * u) pingUnit (some (t + 2 * u + 2 * u))
    constructor
    · simp [pingTraceAux, esValid, esEnabled, esStep, ESEvent.time, pingUnit_Err,
        isPing_pingUnit, isEOS_pingUnit, deadlineBefore, hbef]
      exact ⟨by omega, ihv⟩
    · simp [pingTraceAux, esRun, esStep, pingUnit_Err, isPing_pingUnit, isEOS_pingUnit,
        deadlineBefore, hbef]
      exact ihr

/-! ### Canonical full schedules for a byte stream -/

/-- The unit carrying a decode error for malformed input. -/
def badUnit (m : String) : EnvelopeOrError := ⟨none, some (GoError.msg m)⟩

/-- The successfully decoded units of a byte stream, in order. -/
def okUnits (bs : ByteStream) : List EnvelopeOrError :=
  bs.parses.map (fun j => ⟨some (unmarshalEnvelope j), none⟩)

/-- The first `n` units `decodeEnvelopes` offers on its channel. -/
def decodeUnits (bs : ByteStream) : Nat → List EnvelopeOrError
  | 0 => []
  | n + 1 => decodeUnits bs n ++ [decodeUnit bs n]

/-- The schedule in which the decoder delivers every unit of the byte stream
(including the terminal error or `io.EOF` outcome) and the consumer promptly
drains everything deliverable. -/
def canonEvents (bs : ByteStream) : List ESEvent :=
  canonFwd (okUnits bs) ++
    (match bs.tail with
     | Tail.eof => [ESEvent.recv ⟨none, some GoError.eof⟩ 0]
     | Tail.bad m => [ESEvent.recv (badUnit m) 0, ESEvent.send 0])

/-- The schedule that delivers and drains the units of `xs`, then the unit of
`j`, at time 0. -/
def eosTrace (xs : List EnvJson) (j : EnvJson) : List ESEvent :=
  canonFwd (xs.map (fun x => ⟨some (unmarshalEnvelope x), none⟩)) ++
    [ESEvent.recv ⟨some (unmarshalEnvelope j), none⟩ 0, ESEvent.send 0]

/-- The wall-clock time of the last PING received in a trace (0 if none). -/
def lastPingAbs (evs : List ESEvent) : Nat := (lastPing none evs).getD 0

lemma recvPayloads_canonFwd : ∀ us : List EnvelopeOrError, recvPayloads (canonFwd us) = us
  | [] => rfl
  | u :: us => by simp [canonFwd, recvPayloads, recvPayloads_canonFwd us]

lemma recvPayloads_append :
    ∀ xs ys : List ESEvent, recvPayloads (xs ++ ys) = recvPayloads xs ++ recvPayloads ys
  | [], ys => rfl
  | ev :: xs, ys => by
    cases ev <;> simp [recvPayloads, recvPayloads_append xs ys]

lemma decodeUnits_take (bs : ByteStream) :
    ∀ n, n ≤ bs.parses.length →
      decodeUnits bs n =
        (bs.parses.take n).map (fun j => ⟨some (unmarshalEnvelope j), none⟩) := by
  intro n
  induction n with
  | zero => intro _; rfl
  | succ n ih =>
    intro h
    have hn : n < bs.parses.length := by omega
    simp only [decodeUnits, ih (by omega), List.take_succ, decodeUnit]
    cases hg : bs.parses.get? n with
    | none => simp [List.get?_eq_none] at hg; omega
    | some j0 => simp [← List.get?_eq_getElem?, hg]

lemma decodeUnits_all (bs : ByteStream) :
    decodeUnits bs (bs.parses.length + 1) = okUnits bs ++ [⟨none, bs.tail.err⟩] := by
  simp only [decodeUnits, decodeUnits_take bs bs.parses.length (le_refl _),
    List.take_length, okUnits, decodeUnit]
  cases hg : bs.parses.get? bs.parses.length with
  | none => simp
  | some j0 =>
    have := List.get?_eq_none.2 (le_refl bs.parses.length)
    simp [this] at hg

lemma recvPayloads_canonEvents (bs : ByteStream) :
    recvPayloads (canonEvents bs) = decodeUnits bs (bs.parses.length + 1) := by
  rw [decodeUnits_all, canonEvents, recvPayloads_append, recvPayloads_canonFwd]
  cases bs.tail <;> simp [recvPayloads, badUnit, Tail.err]

/-! ## Claim theorems on the envelope stream and the data model -/

/-- C1: for every input stream and every `pingTimeout`, the liveness deadline
is pushed to `now + pingTimeout` exactly when a PING-typed unit is received
(any other received unit, and every forwarding or timer step, leaves it
unchanged); when the timer fires at an instant not past the current deadline
the watchdog re-arms `deadlineCh` for the remaining time instead of
terminating; and consequently the schedule that delivers a PING every `u`
time units with heartbeat timeout `2·u` (i.e. every `T/2` with timeout `T`)
is valid and never terminates, for any number of rounds. -/
theorem c1_ping_resets_deadline :
    (∀ (pt : Nat) (s s' : ESState) (u : EnvelopeOrError) (now : Nat)
        (em : Option EnvelopeOrError),
      esStep pt s (ESEvent.recv u now) = ESStep.cont s' em →
        s'.deadline = if isPing u then some (now + pt) else s.deadline) ∧
    (∀ (pt : Nat) (s s' : ESState) (now : Nat) (em : Option EnvelopeOrError),
      esStep pt s (ESEvent.send now) = ESStep.cont s' em → s'.deadline = s.deadline) ∧
    (∀ (pt : Nat) (s : ESState) (now : Nat),
      deadlineBefore s.deadline now = false →
        esStep pt s (ESEvent.fire now) =
          ESStep.cont { s with deadlineFire := s.deadline.getD 0 } none) ∧
    (∀ (u k : Nat),
      esValid (2 * u) (esInit (2 * u)) 0 (pingTrace u k) = true ∧
      (esRun (2 * u) (esInit (2 * u)) (pingTrace u k)).stopped = false) := by
  refine ⟨?_, ?_, ?_, ?_⟩
  · intro pt s s' u now em h
    simp only [esStep] at h
    split at h
    · exact absurd h (by simp)
    · injection h with h1 h2
      subst h1
      rfl
  · intro pt s s' now em h
    simp only [esStep] at h
    split at h
    · exact absurd h (by simp)
    · split at h
      · exact absurd h (by simp)
      · injection h with h1 h2
        subst h1
        rfl
  · intro pt s now h
    simp [esStep, h]
  · intro u k
    have h := pingTraceAux_spec u k 0 zeroUnit none
    simpa [esInit, pingTrace, zeroUnit] using h

/-- Witness for C1 at concrete inputs: a PING received at time 5 with timeout
2 sets the deadline to 7; a send leaves the deadline unchanged; a timer firing
at 9 against deadline 10 re-arms for instant 10 instead of stopping; and one
round of the PING-every-1 schedule with timeout 2 is valid and does not
terminate. -/
theorem c1_ping_resets_deadline_witness :
    ((⟨true, pingUnit, some 7, 2⟩ : ESState).deadline =
        if isPing pingUnit then some (5 + 2) else (esInit 2).deadline) ∧
      ((⟨false, pingUnit, some 9, 4⟩ : ESState).deadline =
        (⟨true, pingUnit, some 9, 4⟩ : ESState).deadline) ∧
      (esStep 7 ⟨false, zeroUnit, some 10, 7⟩ (ESEvent.fire 9) =
        ESStep.cont ⟨false, zeroUnit, some 10, 10⟩ none) ∧
      (esValid 2 (esInit 2) 0 (pingTrace 1 1) = true ∧
        (esRun 2 (esInit 2) (pingTrace 1 1)).stopped = false) :=
  ⟨c1_ping_resets_deadline.1 2 (esInit 2) ⟨true, pingUnit, some 7, 2⟩ pingUnit 5 none
      (by decide),
    c1_ping_resets_deadline.2.1 4 ⟨true, pingUnit, some 9, 4⟩ ⟨false, pingUnit, some 9, 4⟩ 6
      (some pingUnit) (by decide),
    c1_ping_resets_deadline.2.2.1 7 ⟨false, zeroUnit, some 10, 7⟩ 9 (by decide),
    c1_ping_resets_deadline.2.2.2 1 1⟩

/-- C2: whenever a valid, still-running schedule has reached a wall-clock
instant and a time `t` exists that is past every event so far and more than
`pingTimeout` past the last PING (the zero time if none arrived, so in
particular when no unit at all arrived for longer than `pingTimeout`), the
timer case is enabled at `t` and taking it terminates the stream silently: no
further unit is emitted, no emitted unit carried an error, and the goroutine
returns, closing the output channel and the transport body
(`stopped = true`).  The second conjunct is the no-unit-at-all instance. -/
theorem c2_silent_timeout :
    (∀ (pt : Nat) (evs : List ESEvent) (t : Nat),
      esValid pt (esInit pt) 0 evs = true →
      (esRun pt (esInit pt) evs).stopped = false →
      tminAfter 0 evs ≤ t →
      lastPingAbs evs + pt < t →
      esValid pt (esInit pt) 0 (evs ++ [ESEvent.fire t]) = true ∧
        esRun pt (esInit pt) (evs ++ [ESEvent.fire t]) =
          ⟨(esRun pt (esInit pt) evs).outputs, true⟩ ∧
        ∀ u ∈ (esRun pt (esInit pt) evs).outputs, u.Err = none) ∧
    (∀ pt : Nat,
      esValid pt (esInit pt) 0 [ESEvent.fire (pt + 1)] = true ∧
      esRun pt (esInit pt) [ESEvent.fire (pt + 1)] = ⟨[], true⟩) := by
  constructor
  · intro pt evs t hv hns hle hgt
    obtain ⟨s', hx⟩ :=
      Option.isSome_iff_exists.1 ((esRun_stopped_iff_exec evs (esInit pt)).1 hns)
    obtain ⟨hd, hf, hl⟩ :=
      esDeadline_invariant evs (esInit pt) 0 none s' hv hx rfl (by simp [esInit]) (by simp)
    have hfire : s'.deadlineFire ≤ t := by
      unfold lastPingAbs at hgt
      omega
    have hstop : esStep pt s' (ESEvent.fire t) = ESStep.stop none := by
      simp only [esStep]
      rw [if_pos]
      rw [hd]
      cases hlp : lastPing none evs with
      | none => rfl
      | some l =>
        simp only [Option.map_some', deadlineBefore, decide_eq_true_eq]
        unfold lastPingAbs at hgt
        rw [hlp] at hgt
        simpa using hgt
    refine ⟨?_, ?_, ?_⟩
    · rw [esValid_append_of_exec evs 0 [ESEvent.fire t] hx]
      refine ⟨hv, ?_⟩
      simp [esValid, esEnabled, hstop, hfire, hle]
    · rw [esRun_append_of_exec evs [ESEvent.fire t] hx]
      simp [esRun, hstop]
    · intro u hu
      exact (esRun_not_stopped_ok evs (esInit pt) hns u hu).1
  · intro pt
    constructor
    · simp [esValid, esEnabled, esStep, esInit, deadlineBefore]
    · simp [esRun, esStep, esInit, deadlineBefore]

/-- Witness for C2: from the empty schedule with timeout 3, firing the timer
at time 4 closes the stream silently with no outputs. -/
theorem c2_silent_timeout_witness :
    esValid 3 (esInit 3) 0 ([] ++ [ESEvent.fire 4]) = true ∧
      esRun 3 (esInit 3) ([] ++ [ESEvent.fire 4]) =
        ⟨(esRun 3 (esInit 3) []).outputs, true⟩ ∧
      ∀ u ∈ (esRun 3 (esInit 3) []).outputs, u.Err = none :=
  c2_silent_timeout.1 3 [] 4 rfl rfl (by decide) (by decide)

/-- C3: on a byte stream whose objects are followed by a malformed token, the
canonical schedule (decoder delivers, consumer drains) is valid and emits the
successfully decoded units followed by exactly one unit with nil `Envelope`
and non-nil `Err`, after which the goroutine returns (output channel and
transport closed; trace validity forbids any later event).  On clean `io.EOF`
the goroutine returns with no error unit ever emitted.  In every schedule
whatsoever, any emitted unit other than the last carries no error, and a run
that has not stopped emitted no error unit — so no unit of any kind can
follow an error unit, i.e. the decode failure is never retried from the
caller's viewpoint.  Finally, the canonical schedule's received units are
exactly the first `parses.length + 1` units `decodeEnvelopes` offers. -/
theorem c3_decode_error_terminal :
    (∀ (pt : Nat) (bs : ByteStream) (m : String),
      bs.tail = Tail.bad m →
      (∀ j ∈ bs.parses, (unmarshalEnvelope j).type ≠ "END_OF_STREAM") →
      esValid pt (esInit pt) 0 (canonEvents bs) = true ∧
      esRun pt (esInit pt) (canonEvents bs) = ⟨okUnits bs ++ [badUnit m], true⟩) ∧
    (∀ (pt : Nat) (bs : ByteStream),
      bs.tail = Tail.eof →
      (∀ j ∈ bs.parses, (unmarshalEnvelope j).type ≠ "END_OF_STREAM") →
      esValid pt (esInit pt) 0 (canonEvents bs) = true ∧
      esRun pt (esInit pt) (canonEvents bs) = ⟨okUnits bs, true⟩ ∧
      ∀ u ∈ okUnits bs, u.Err = none) ∧
    (∀ (pt : Nat) (s : ESState) (evs : List ESEvent),
      ∀ u ∈ (esRun pt s evs).outputs.dropLast, u.Err = none) ∧
    (∀ (pt : Nat) (s : ESState) (evs : List ESEvent),
      (esRun pt s evs).stopped = false → ∀ u ∈ (esRun pt s evs).outputs, u.Err = none) ∧
    (∀ bs : ByteStream,
      recvPayloads (canonEvents bs) = decodeUnits bs (bs.parses.length + 1)) := by
  have hgoodUnits : ∀ (bs : ByteStream),
      (∀ j ∈ bs.parses, (unmarshalEnvelope j).type ≠ "END_OF_STREAM") →
      ∀ u ∈ okUnits bs, u.Err = none ∧ isEOS u = false := by
    intro bs hnoeos u hu
    simp only [okUnits, List.mem_map] at hu
    obtain ⟨j, hj, rfl⟩ := hu
    exact ⟨rfl, by simp [isEOS, hnoeos j hj]⟩
  refine ⟨?_, ?_, ?_, ?_, recvPayloads_canonEvents⟩
  · intro pt bs m htail hnoeos
    obtain ⟨s', hx, hv, hr, hrdy, hdf⟩ :=
      canonFwd_spec (okUnits bs) pt (esInit pt) rfl (hgoodUnits bs hnoeos)
    constructor
    · simp only [canonEvents, htail]
      rw [esValid_append_of_exec (canonFwd (okUnits bs)) 0 _ hx]
      refine ⟨hv, ?_⟩
      rw [tminAfter_canonFwd]
      simp [esValid, esEnabled, esStep, badUnit, isPing, hrdy, ESEvent.time]
    · simp only [canonEvents, htail]
      rw [esRun_append_of_exec (canonFwd (okUnits bs)) _ hx]
      rw [hr]
      simp [esRun, esStep, badUnit]
  · intro pt bs htail hnoeos
    obtain ⟨s', hx, hv, hr, hrdy, hdf⟩ :=
      canonFwd_spec (okUnits bs) pt (esInit pt) rfl (hgoodUnits bs hnoeos)
    refine ⟨?_, ?_, fun u hu => (hgoodUnits bs hnoeos u hu).1⟩
    · simp only [canonEvents, htail]
      rw [esValid_append_of_exec (canonFwd (okUnits bs)) 0 _ hx]
      refine ⟨hv, ?_⟩
      rw [tminAfter_canonFwd]
      simp [esValid, esEnabled, esStep, hrdy]
    · simp only [canonEvents, htail]
      rw [esRun_append_of_exec (canonFwd (okUnits bs)) _ hx]
      rw [hr]
      simp [esRun, esStep]
  · intro pt s evs u hu
    exact (esRun_dropLast_ok evs s u hu).1
  · intro pt s evs hns u hu
    exact (esRun_not_stopped_ok evs s hns u hu).1

/-- Witness for C3 at concrete byte streams: one well-formed object followed
by a malformed token yields the decoded unit then exactly one error unit and
termination; the same object followed by clean EOF yields the decoded unit
and silent termination. -/
theorem c3_decode_error_terminal_witness :
    (esValid 1 (esInit 1) 0 (canonEvents ⟨[marshalEnvelope zeroEnvelope], Tail.bad "x"⟩) = true ∧
      esRun 1 (esInit 1) (canonEvents ⟨[marshalEnvelope zeroEnvelope], Tail.bad "x"⟩) =
        ⟨okUnits ⟨[marshalEnvelope zeroEnvelope], Tail.bad "x"⟩ ++ [badUnit "x"], true⟩) ∧
      (esValid 1 (esInit 1) 0 (canonEvents ⟨[marshalEnvelope zeroEnvelope], Tail.eof⟩) = true ∧
        esRun 1 (esInit 1) (canonEvents ⟨[marshalEnvelope zeroEnvelope], Tail.eof⟩) =
          ⟨okUnits ⟨[marshalEnvelope zeroEnvelope], Tail.eof⟩, true⟩ ∧
        ∀ u ∈ okUnits ⟨[marshalEnvelope zeroEnvelope], Tail.eof⟩, u.Err = none) :=
  ⟨c3_decode_error_terminal.1 1 ⟨[marshalEnvelope zeroEnvelope], Tail.bad "x"⟩ "x" rfl
      (by decide),
    c3_decode_error_terminal.2.1 1 ⟨[marshalEnvelope zeroEnvelope], Tail.eof⟩ rfl (by decide)⟩

/-- C5: when the decoder produces an END_OF_STREAM envelope (here after the
objects of `xs`, with arbitrary further input `ys` still unread on the byte
stream), the canonical schedule forwards the preceding units and the
END_OF_STREAM envelope itself, then the goroutine returns — output channel
and transport closed, and trace validity forbids any later event, so no
further unit is delivered even though more bytes remain.  Moreover, in every
schedule whatsoever an END_OF_STREAM unit can only be the last emission, and
a run that has not stopped emitted none. -/
theorem c5_end_of_stream_terminal :
    (∀ (pt : Nat) (bs : ByteStream) (xs : List EnvJson) (j : EnvJson) (ys : List EnvJson),
      bs.parses = xs ++ j :: ys →
      (unmarshalEnvelope j).type = "END_OF_STREAM" →
      (∀ x ∈ xs, (unmarshalEnvelope x).type ≠ "END_OF_STREAM") →
      esValid pt (esInit pt) 0 (eosTrace xs j) = true ∧
      esRun pt (esInit pt) (eosTrace xs j) =
        ⟨xs.map (fun x => ⟨some (unmarshalEnvelope x), none⟩) ++
            [⟨some (unmarshalEnvelope j), none⟩], true⟩) ∧
    (∀ (pt : Nat) (s : ESState) (evs : List ESEvent),
      ∀ u ∈ (esRun pt s evs).outputs.dropLast, isEOS u = false) ∧
    (∀ (pt : Nat) (s : ESState) (evs : List ESEvent),
      (esRun pt s evs).stopped = false →
      ∀ u ∈ (esRun pt s evs).outputs, isEOS u = false) := by
  refine ⟨?_, ?_, ?_⟩
  · intro pt bs xs j ys hbs hj hnoeos
    have hgood : ∀ u ∈ xs.map (fun x => (⟨some (unmarshalEnvelope x), none⟩ : EnvelopeOrError)),
        u.Err = none ∧ isEOS u = false := by
      intro u hu
      simp only [List.mem_map] at hu
      obtain ⟨x, hx, rfl⟩ := hu
      exact ⟨rfl, by simp [isEOS, hnoeos x hx]⟩
    obtain ⟨s', hx, hv, hr, hrdy, hdf⟩ :=
      canonFwd_spec (xs.map (fun x => ⟨some (unmarshalEnvelope x), none⟩)) pt (esInit pt)
        rfl hgood
    constructor
    · simp only [eosTrace]
      rw [esValid_append_of_exec _ 0 _ hx]
      refine ⟨hv, ?_⟩
      rw [tminAfter_canonFwd]
      simp [esValid, esEnabled, esStep, isPing, isEOS, hj, hrdy, ESEvent.time]
    · simp only [eosTrace]
      rw [esRun_append_of_exec _ _ hx]
      rw [hr]
      simp [esRun, esStep, isEOS, hj]
  · intro pt s evs u hu
    exact (esRun_dropLast_ok evs s u hu).2
  · intro pt s evs hns u hu
    exact (esRun_not_stopped_ok evs s hns u hu).2

/-- Witness for C5: with one DATA envelope before an END_OF_STREAM envelope
and one more envelope behind it on the stream, the run forwards the DATA and
the END_OF_STREAM units and stops. -/
theorem c5_end_of_stream_terminal_witness :
    esValid 1 (esInit 1) 0
        (eosTrace [marshalEnvelope zeroEnvelope]
          (marshalEnvelope { zeroEnvelope with type := "END_OF_STREAM" })) = true ∧
      esRun 1 (esInit 1)
          (eosTrace [marshalEnvelope zeroEnvelope]
            (marshalEnvelope { zeroEnvelope with type := "END_OF_STREAM" })) =
        ⟨[marshalEnvelope zeroEnvelope].map (fun x => ⟨some (unmarshalEnvelope x), none⟩) ++
            [⟨some (unmarshalEnvelope
                (marshalEnvelope { zeroEnvelope with type := "END_OF_STREAM" })), none⟩],
          true⟩ :=
  c5_end_of_stream_terminal.1 1
    ⟨[marshalEnvelope zeroEnvelope,
        marshalEnvelope { zeroEnvelope with type := "END_OF_STREAM" },
        marshalEnvelope zeroEnvelope], Tail.eof⟩
    [marshalEnvelope zeroEnvelope]
    (marshalEnvelope { zeroEnvelope with type := "END_OF_STREAM" })
    [marshalEnvelope zeroEnvelope]
    rfl (by decide) (by decide)

/-- C8: decoding a marshalled envelope recovers every field (`type`,
`partition`, `key`, `offset`, `topic`, `createTime`, `message`,
`syncMarker`); consequently, for every well-formed concatenated sequence of
JSON envelope objects (a sequence of marshalled envelopes), decoding each
object and re-serializing it reproduces the input exactly; and the decoder's
successful units carry precisely the decoded envelope. -/
theorem c8_decode_reserialize :
    (∀ e : Envelope, unmarshalEnvelope (marshalEnvelope e) = e) ∧
    (∀ js : List EnvJson, (∀ j ∈ js, ∃ e : Envelope, marshalEnvelope e = j) →
      js.map (fun j => marshalEnvelope (unmarshalEnvelope j)) = js) ∧
    (∀ (bs : ByteStream) (n : Nat) (j : EnvJson), bs.parses.get? n = some j →
      decodeUnit bs n = ⟨some (unmarshalEnvelope j), none⟩) := by
  refine ⟨unmarshalEnvelope_marshalEnvelope, ?_, ?_⟩
  · intro js h
    induction js with
    | nil => rfl
    | cons j js ih =>
      obtain ⟨e, he⟩ := h j (List.mem_cons_self j js)
      simp only [List.map_cons, List.cons.injEq]
      refine ⟨?_, ih fun x hx => h x (List.mem_cons_of_mem j hx)⟩
      rw [← he, unmarshalEnvelope_marshalEnvelope]
  · intro bs n j h
    simp [decodeUnit, ← List.get?_eq_getElem?, h]

/-- Witness for C8 on a concrete one-element sequence. -/
theorem c8_decode_reserialize_witness :
    [marshalEnvelope zeroEnvelope].map (fun j => marshalEnvelope (unmarshalEnvelope j)) =
        [marshalEnvelope zeroEnvelope] ∧
      decodeUnit ⟨[marshalEnvelope zeroEnvelope], Tail.eof⟩ 0 =
        ⟨some (unmarshalEnvelope (marshalEnvelope zeroEnvelope)), none⟩ :=
  ⟨c8_decode_reserialize.2.1 [marshalEnvelope zeroEnvelope]
      (fun j hj => ⟨zeroEnvelope, by simp at hj; exact hj.symm⟩),
    c8_decode_reserialize.2.2 ⟨[marshalEnvelope zeroEnvelope], Tail.eof⟩ 0
      (marshalEnvelope zeroEnvelope) rfl⟩

/-- C9: when neither duration option is specified (non-positive), the
effective heartbeat timeout used by `Receive` is 90 seconds and the effective
reconnection delay (5 seconds) lies between 5 and 10 seconds inclusive. -/
theorem c9_default_options (r : ReceiveRequest)
    (hp : r.PingTimeout ≤ 0) (hd : r.ReconnectionDelay ≤ 0) :
    r.pingTimeout = 90 * second ∧
      5 * second ≤ r.reconnectionDelay ∧ r.reconnectionDelay ≤ 10 * second := by
  unfold ReceiveRequest.pingTimeout ReceiveRequest.reconnectionDelay
  rw [if_neg (by omega), if_neg (by omega)]
  norm_num [second]

/-- Witness for C9 at the zero request. -/
theorem c9_default_options_witness :
    (⟨0, 0⟩ : ReceiveRequest).pingTimeout = 90 * second ∧
      5 * second ≤ (⟨0, 0⟩ : ReceiveRequest).reconnectionDelay ∧
      (⟨0, 0⟩ : ReceiveRequest).reconnectionDelay ≤ 10 * second :=
  c9_default_options ⟨0, 0⟩ (by norm_num) (by norm_num)

/-! ## The reconnecting supervisor (`reconnectStream`)

The source holds two variants of `reconnectStream`.  Both run a goroutine
looping over connection attempts against an abstract `streamGetter`.

Variant 2 (the one used together with the fused `envelopeStream`): each
iteration calls `stream(ctx)`; on error it sends one wrapped error unit (or
observes cancellation), then falls through to a `select` on
`time.After(delay)` versus `ctx.Done()`; on success it forwards units with a
one-unit buffer (`envelope`/`envelopeReady`/`open`) until the input channel
closes and the buffer is flushed, then falls through to the same delay
`select`.  Because the input channel is selected only while no unit is
buffered, a close can only be observed with an empty buffer, so the phases
are: `connecting` (inside the factory call), `errSend e` (offering the
wrapped unit), `streaming buf` (forwarding), `delaying since` (inside the
delay `select`).

Variant 1 creates a per-attempt `context.WithCancel` (cancelled by a `defer`
when the attempt's closure returns) and forwards without a buffer; its error
path also sends one wrapped unit and waits `time.After(delay)`.  Its single
behavioural difference: when the active source closes, the closure returns
`false` and the loop re-invokes the factory immediately, with no delay.

The input channel closing (`inClosed`) means the envelope stream's goroutine
has returned — by the `envelopeStream` model its derived context is cancelled
and the transport body closed — so `conns`, the number of live underlying
connections (incremented when the factory returns a stream, decremented when
that stream's channel closes), tracks concurrent connections.  A transition
into `connecting` is a factory invocation; `rsProc` records its time. -/

/-- The waiting points of the `reconnectStream` goroutine. -/
inductive RSPhase where
  | connecting
  | errSend (e : GoError)
  | streaming (buf : Option EnvelopeOrError)
  | delaying (since : Nat)
deriving DecidableEq

/-- Supervisor state: current phase and number of live underlying
connections. -/
structure RSState where
  phase : RSPhase
  conns : Nat
deriving DecidableEq

/-- The supervisor starts inside its first factory invocation. -/
def rsInit : RSState := ⟨RSPhase.connecting, 0⟩

/-- One scheduled resolution of a supervisor wait. -/
inductive RSEvent where
  | factoryOk (now : Nat)
  | factoryErr (e : GoError) (now : Nat)
  | recvUnit (u : EnvelopeOrError) (now : Nat)
  | inClosed (now : Nat)
  | sendDone (now : Nat)
  | delayDone (now : Nat)
  | cancel (now : Nat)
deriving DecidableEq

/-- The wall-clock instant of a supervisor event. -/
def RSEvent.time : RSEvent → Nat
  | .factoryOk now => now
  | .factoryErr _ now => now
  | .recvUnit _ now => now
  | .inClosed now => now
  | .sendDone now => now
  | .delayDone now => now
  | .cancel now => now

/-- Result of resolving one event: impossible under the Go semantics
(`invalid`), continue, or return from the goroutine (closing `out`). -/
inductive RSRes where
  | invalid
  | cont (s : RSState) (em : Option EnvelopeOrError)
  | stop (em : Option EnvelopeOrError)
deriving DecidableEq

/-- One transition of the second (buffered, delay-after-every-attempt)
`reconnectStream` variant.  `tmin` is the previous event's time; every
resolution requires a non-decreasing wall clock, and `delayDone` additionally
requires `time.After(delay)` (armed when the delay `select` was entered at
`since`) to have fired. -/
def rs2Step (delay : Nat) (s : RSState) (tmin : Nat) : RSEvent → RSRes
  | RSEvent.factoryOk now =>
    match s.phase with
    | RSPhase.connecting =>
      if tmin ≤ now then RSRes.cont ⟨RSPhase.streaming none, s.conns + 1⟩ none
      else RSRes.invalid
    | _ => RSRes.invalid
  | RSEvent.factoryErr e now =>
    match s.phase with
    | RSPhase.connecting =>
      if tmin ≤ now then RSRes.cont ⟨RSPhase.errSend e, s.conns⟩ none
      else RSRes.invalid
    | _ => RSRes.invalid
  | RSEvent.recvUnit u now =>
    match s.phase with
    | RSPhase.streaming none =>
      if tmin ≤ now then RSRes.cont ⟨RSPhase.streaming (some u), s.conns⟩ none
      else RSRes.invalid
    | _ => RSRes.invalid
  | RSEvent.inClosed now =>
    match s.phase with
    | RSPhase.streaming none =>
      if tmin ≤ now then RSRes.cont ⟨RSPhase.delaying now, s.conns - 1⟩ none
      else RSRes.invalid
    | _ => RSRes.invalid
  | RSEvent.sendDone now =>
    match s.phase with
    | RSPhase.errSend e =>
      if tmin ≤ now then
        RSRes.cont ⟨RSPhase.delaying now, s.conns⟩
          (some ⟨none, some (GoError.wrap "get stream" e)⟩)
      else RSRes.invalid
    | RSPhase.streaming (some u) =>
      if tmin ≤ now then RSRes.cont ⟨RSPhase.streaming none, s.conns⟩ (some u)
      else RSRes.invalid
    | _ => RSRes.invalid
  | RSEvent.delayDone now =>
    match s.phase with
    | RSPhase.delaying since =>
      if tmin ≤ now ∧ since + delay ≤ now then RSRes.cont ⟨RSPhase.connecting, s.conns⟩ none
      else RSRes.invalid
    | _ => RSRes.invalid
  | RSEvent.cancel now =>
    match s.phase with
    | RSPhase.connecting => RSRes.invalid
    | _ => if tmin ≤ now then RSRes.stop none else RSRes.invalid

/-- One transition of the first (per-attempt sub-context) `reconnectStream`
variant.  It differs from the second variant in exactly one transition: when
the active source closes, the attempt's closure returns `false` (its deferred
`streamCancel` cancelling the attempt context) and the loop re-enters the
factory immediately, with no delay.  All other transitions coincide. -/
def rs1Step (delay : Nat) (s : RSState) (tmin : Nat) : RSEvent → RSRes
  | RSEvent.inClosed now =>
    match s.phase with
    | RSPhase.streaming none =>
      if tmin ≤ now then RSRes.cont ⟨RSPhase.connecting, s.conns - 1⟩ none
      else RSRes.invalid
    | _ => RSRes.invalid
  | ev => rs2Step delay s tmin ev

/-- Observable outcome of a supervisor trace: units emitted on `out`, the
times of factory invocations after the first (a transition into
`connecting`), whether the goroutine returned (closing `out`), whether the
trace is possible under the Go semantics, and the final state with its clock
when still running. -/
structure RSOut where
  outputs : List EnvelopeOrError
  calls : List Nat
  stopped : Bool
  ok : Bool
  final : Option (RSState × Nat)
deriving DecidableEq

/-- Run a supervisor trace under a given step function. -/
def rsProc (step : RSState → Nat → RSEvent → RSRes) (s : RSState) (tmin : Nat) :
    List RSEvent → RSOut
  | [] => ⟨[], [], false, true, some (s, tmin)⟩
  | ev :: evs =>
    match step s tmin ev with
    | RSRes.invalid => ⟨[], [], false, false, none⟩
    | RSRes.stop em => ⟨em.toList, [], true, evs.isEmpty, none⟩
    | RSRes.cont s' em =>
      let r := rsProc step s' ev.time evs
      ⟨em.toList ++ r.outputs,
        (if s'.phase = RSPhase.connecting then [ev.time] else []) ++ r.calls,
        r.stopped, r.ok, r.final⟩

/-- The units delivered by the active sources along a trace. -/
def rsRecvUnits : List RSEvent → List EnvelopeOrError
  | [] => []
  | RSEvent.recvUnit u _ :: evs => u :: rsRecvUnits evs
  | _ :: evs => rsRecvUnits evs

/-- The unit the supervisor currently holds for sending, per phase. -/
def rsPending : RSPhase → Option EnvelopeOrError
  | RSPhase.errSend e => some ⟨none, some (GoError.wrap "get stream" e)⟩
  | RSPhase.streaming (some u) => some u
  | _ => none

/-- The output sequence determined by a trace alone: a factory error loads
the wrapped error unit, a received unit loads that unit, and a completed send
emits the loaded unit. -/
def rsOutputsSpec (pending : Option EnvelopeOrError) : List RSEvent → List EnvelopeOrError
  | [] => []
  | RSEvent.factoryErr e _ :: evs =>
    rsOutputsSpec (some ⟨none, some (GoError.wrap "get stream" e)⟩) evs
  | RSEvent.recvUnit u _ :: evs => rsOutputsSpec (some u) evs
  | RSEvent.sendDone _ :: evs => pending.toList ++ rsOutputsSpec none evs
  | _ :: evs => rsOutputsSpec pending evs

/-! ### Transition analysis for the supervisor variants -/

lemma rs2Step_cases {delay tmin : Nat} {s s' : RSState} {em : Option EnvelopeOrError}
    {ev : RSEvent} (h : rs2Step delay s tmin ev = RSRes.cont s' em) :
    tmin ≤ ev.time ∧
    ((∃ now, ev = RSEvent.factoryOk now ∧ s.phase = RSPhase.connecting ∧
        s' = ⟨RSPhase.streaming none, s.conns + 1⟩ ∧ em = none) ∨
     (∃ e now, ev = RSEvent.factoryErr e now ∧ s.phase = RSPhase.connecting ∧
        s' = ⟨RSPhase.errSend e, s.conns⟩ ∧ em = none) ∨
     (∃ u now, ev = RSEvent.recvUnit u now ∧ s.phase = RSPhase.streaming none ∧
        s' = ⟨RSPhase.streaming (some u), s.conns⟩ ∧ em = none) ∨
     (∃ now, ev = RSEvent.inClosed now ∧ s.phase = RSPhase.streaming none ∧
        s' = ⟨RSPhase.delaying now, s.conns - 1⟩ ∧ em = none) ∨
     (∃ e now, ev = RSEvent.sendDone now ∧ s.phase = RSPhase.errSend e ∧
        s' = ⟨RSPhase.delaying now, s.conns⟩ ∧
        em = some ⟨none, some (GoError.wrap "get stream" e)⟩) ∨
     (∃ u now, ev = RSEvent.sendDone now ∧ s.phase = RSPhase.streaming (some u) ∧
        s' = ⟨RSPhase.streaming none, s.conns⟩ ∧ em = some u) ∨
     (∃ ts now, ev = RSEvent.delayDone now ∧ s.phase = RSPhase.delaying ts ∧
        ts + delay ≤ now ∧ s' = ⟨RSPhase.connecting, s.conns⟩ ∧ em = none)) := by
  cases ev with
  | factoryOk now =>
    cases hp : s.phase with
    | connecting =>
      simp only [rs2Step, hp] at h
      split at h
      · injection h with h1 h2
        exact ⟨by simp only [RSEvent.time]; omega,
          Or.inl ⟨now, rfl, rfl, h1.symm, h2.symm⟩⟩
      · cases h
    | errSend e => simp only [rs2Step, hp] at h; cases h
    | streaming buf => simp only [rs2Step, hp] at h; cases h
    | delaying t => simp only [rs2Step, hp] at h; cases h
  | factoryErr e now =>
    cases hp : s.phase with
    | connecting =>
      simp only [rs2Step, hp] at h
      split at h
      · injection h with h1 h2
        exact ⟨by simp only [RSEvent.time]; omega,
          Or.inr (Or.inl ⟨e, now, rfl, rfl, h1.symm, h2.symm⟩)⟩
      · cases h
    | errSend e0 => simp only [rs2Step, hp] at h; cases h
    | streaming buf => simp only [rs2Step, hp] at h; cases h
    | delaying t => simp only [rs2Step, hp] at h; cases h
  | recvUnit u now =>
    cases hp : s.phase with
    | connecting => simp only [rs2Step, hp] at h; cases h
    | errSend e0 => simp only [rs2Step, hp] at h; cases h
    | streaming buf =>
      cases buf with
      | none =>
        simp only [rs2Step, hp] at h
        split at h
        · injection h with h1 h2
          exact ⟨by simp only [RSEvent.time]; omega,
            Or.inr (Or.inr (Or.inl ⟨u, now, rfl, rfl, h1.symm, h2.symm⟩))⟩
        · cases h
      | some u0 => simp only [rs2Step, hp] at h; cases h
    | delaying t => simp only [rs2Step, hp] at h; cases h
  | inClosed now =>
    cases hp : s.phase with
    | connecting => simp only [rs2Step, hp] at h; cases h
    | errSend e0 => simp only [rs2Step, hp] at h; cases h
    | streaming buf =>
      cases buf with
      | none =>
        simp only [rs2Step, hp] at h
        split at h
        · injection h with h1 h2
          exact ⟨by simp only [RSEvent.time]; omega,
            Or.inr (Or.inr (Or.inr (Or.inl ⟨now, rfl, rfl, h1.symm, h2.symm⟩)))⟩
        · cases h
      | some u0 => simp only [rs2Step, hp] at h; cases h
    | delaying t => simp only [rs2Step, hp] at h; cases h
  | sendDone now =>
    cases hp : s.phase with
    | connecting => simp only [rs2Step, hp] at h; cases h
    | errSend e0 =>
      simp only [rs2Step, hp] at h
      split at h
      · injection h with h1 h2
        exact ⟨by simp only [RSEvent.time]; omega,
          Or.inr (Or.inr (Or.inr (Or.inr (Or.inl ⟨e0, now, rfl, rfl, h1.symm, h2.symm⟩))))⟩
      · cases h
    | streaming buf =>
      cases buf with
      | none => simp only [rs2Step, hp] at h; cases h
      | some u0 =>
        simp only [rs2Step, hp] at h
        split at h
        · injection h with h1 h2
          exact ⟨by simp only [RSEvent.time]; omega,
            Or.inr (Or.inr (Or.inr (Or.inr (Or.inr (Or.inl
              ⟨u0, now, rfl, rfl, h1.symm, h2.symm⟩)))))⟩
        · cases h
    | delaying t => simp only [rs2Step, hp] at h; cases h
  | delayDone now =>
    cases hp : s.phase with
    | connecting => simp only [rs2Step, hp] at h; cases h
    | errSend e0 => simp only [rs2Step, hp] at h; cases h
    | streaming buf => simp only [rs2Step, hp] at h; cases h
    | delaying ts =>
      simp only [rs2Step, hp] at h
      split at h
      · injection h with h1 h2
        refine ⟨by simp only [RSEvent.time]; omega, ?_⟩
        refine Or.inr (Or.inr (Or.inr (Or.inr (Or.inr (Or.inr
          ⟨ts, now, rfl, rfl, by omega, h1.symm, h2.symm⟩)))))
      · cases h
  | cancel now =>
    cases hp : s.phase with
    | connecting => simp only [rs2Step, hp] at h; cases h
    | errSend e0 =>
      simp only [rs2Step, hp] at h
      split at h <;> cases h
    | streaming buf =>
      simp only [rs2Step, hp] at h
      split at h <;> cases h
    | delaying t =>
      simp only [rs2Step, hp] at h
      split at h <;> cases h

lemma rs2Step_stop_cases {delay tmin : Nat} {s : RSState} {em : Option EnvelopeOrError}
    {ev : RSEvent} (h : rs2Step delay s tmin ev = RSRes.stop em) :
    ∃ now, ev = RSEvent.cancel now ∧ em = none := by
  cases ev with
  | cancel now =>
    refine ⟨now, rfl, ?_⟩
    cases hp : s.phase with
    | connecting => simp only [rs2Step, hp] at h; cases h
    | errSend e0 =>
      simp only [rs2Step, hp] at h
      split at h
      · injection h with h1; exact h1.symm
      · cases h
    | streaming buf =>
      simp only [rs2Step, hp] at h
      split at h
      · injection h with h1; exact h1.symm
      · cases h
    | delaying t =>
      simp only [rs2Step, hp] at h
      split at h
      · injection h with h1; exact h1.symm
      · cases h
  | factoryOk now =>
    cases hp : s.phase <;> simp only [rs2Step, hp] at h <;>
      first
      | cases h
      | (split at h <;> cases h)
  | factoryErr e now =>
    cases hp : s.phase <;> simp only [rs2Step, hp] at h <;>
      first
      | cases h
      | (split at h <;> cases h)
  | recvUnit u now =>
    cases hp : s.phase with
    | streaming buf =>
      cases buf <;> simp only [rs2Step, hp] at h <;>
        first
        | cases h
        | (split at h <;> cases h)
    | connecting => simp only [rs2Step, hp] at h; cases h
    | errSend e0 => simp only [rs2Step, hp] at h; cases h
    | delaying t => simp only [rs2Step, hp] at h; cases h
  | inClosed now =>
    cases hp : s.phase with
    | streaming buf =>
      cases buf <;> simp only [rs2Step, hp] at h <;>
        first
        | cases h
        | (split at h <;> cases h)
    | connecting => simp only [rs2Step, hp] at h; cases h
    | errSend e0 => simp only [rs2Step, hp] at h; cases h
    | delaying t => simp only [rs2Step, hp] at h; cases h
  | sendDone now =>
    cases hp : s.phase with
    | streaming buf =>
      cases buf <;> simp only [rs2Step, hp] at h <;>
        first
        | cases h
        | (split at h <;> cases h)
    | connecting => simp only [rs2Step, hp] at h; cases h
    | errSend e0 =>
      simp only [rs2Step, hp] at h
      split at h <;> cases h
    | delaying t => simp only [rs2Step, hp] at h; cases h
  | delayDone now =>
    cases hp : s.phase with
    | delaying ts =>
      simp only [rs2Step, hp] at h
      split at h <;> cases h
    | connecting => simp only [rs2Step, hp] at h; cases h
    | errSend e0 => simp only [rs2Step, hp] at h; cases h
    | streaming buf => simp only [rs2Step, hp] at h; cases h

lemma rs1Step_stop_cases {delay tmin : Nat} {s : RSState} {em : Option EnvelopeOrError}
    {ev : RSEvent} (h : rs1Step delay s tmin ev = RSRes.stop em) :
    ∃ now, ev = RSEvent.cancel now ∧ em = none := by
  cases hev : ev with
  | inClosed now =>
    subst hev
    cases hp : s.phase with
    | streaming buf =>
      cases buf with
      | none =>
        simp only [rs1Step, hp] at h
        split at h <;> cases h
      | some u0 => simp only [rs1Step, hp] at h; cases h
    | connecting => simp only [rs1Step, hp] at h; cases h
    | errSend e0 => simp only [rs1Step, hp] at h; cases h
    | delaying t => simp only [rs1Step, hp] at h; cases h
  | factoryOk now => subst hev; simp only [rs1Step] at h; exact rs2Step_stop_cases h
  | factoryErr e now => subst hev; simp only [rs1Step] at h; exact rs2Step_stop_cases h
  | recvUnit u now => subst hev; simp only [rs1Step] at h; exact rs2Step_stop_cases h
  | sendDone now => subst hev; simp only [rs1Step] at h; exact rs2Step_stop_cases h
  | delayDone now => subst hev; simp only [rs1Step] at h; exact rs2Step_stop_cases h
  | cancel now => subst hev; simp only [rs1Step] at h; exact rs2Step_stop_cases h

/-! ### Outputs are determined by the schedule alone -/

lemma rs2Step_spec_step {delay tmin : Nat} {s s' : RSState} {em : Option EnvelopeOrError}
    {ev : RSEvent} (evs : List RSEvent) (h : rs2Step delay s tmin ev = RSRes.cont s' em) :
    em.toList ++ rsOutputsSpec (rsPending s'.phase) evs =
      rsOutputsSpec (rsPending s.phase) (ev :: evs) := by
  obtain ⟨ht, hc⟩ := rs2Step_cases h
  rcases hc with ⟨a, rfl, hp, rfl, rfl⟩ | ⟨a, b, rfl, hp, rfl, rfl⟩ |
      ⟨a, b, rfl, hp, rfl, rfl⟩ | ⟨a, rfl, hp, rfl, rfl⟩ | ⟨a, b, rfl, hp, rfl, rfl⟩ |
      ⟨a, b, rfl, hp, rfl, rfl⟩ | ⟨a, b, rfl, hp, hd, rfl, rfl⟩ <;>
    simp [rsOutputsSpec, rsPending, hp]

lemma rs1Step_spec_step {delay tmin : Nat} {s s' : RSState} {em : Option EnvelopeOrError}
    {ev : RSEvent} (evs : List RSEvent) (h : rs1Step delay s tmin ev = RSRes.cont s' em) :
    em.toList ++ rsOutputsSpec (rsPending s'.phase) evs =
      rsOutputsSpec (rsPending s.phase) (ev :: evs) := by
  cases hev : ev with
  | inClosed now =>
    subst hev
    cases hp : s.phase with
    | streaming buf =>
      cases buf with
      | none =>
        simp only [rs1Step, hp] at h
        split at h
        · injection h with h1 h2
          subst h1
          simp [← h2, rsOutputsSpec, rsPending, hp]
        · cases h
      | some u0 => simp only [rs1Step, hp] at h; cases h
    | connecting => simp only [rs1Step, hp] at h; cases h
    | errSend e0 => simp only [rs1Step, hp] at h; cases h
    | delaying t => simp only [rs1Step, hp] at h; cases h
  | factoryOk now => subst hev; simp only [rs1Step] at h; exact rs2Step_spec_step evs h
  | factoryErr e now => subst hev; simp only [rs1Step] at h; exact rs2Step_spec_step evs h
  | recvUnit u now => subst hev; simp only [rs1Step] at h; exact rs2Step_spec_step evs h
  | sendDone now => subst hev; simp only [rs1Step] at h; exact rs2Step_spec_step evs h
  | delayDone now => subst hev; simp only [rs1Step] at h; exact rs2Step_spec_step evs h
  | cancel now => subst hev; simp only [rs1Step] at h; exact rs2Step_spec_step evs h

lemma rs2_outputs_spec (delay : Nat) :
    ∀ (evs : List RSEvent) (s : RSState) (tmin : Nat),
      (rsProc (rs2Step delay) s tmin evs).ok = true →
      (rsProc (rs2Step delay) s tmin evs).outputs = rsOutputsSpec (rsPending s.phase) evs := by
  intro evs
  induction evs with
  | nil => intro s tmin _; rfl
  | cons ev evs ih =>
    intro s tmin hok
    rcases hstep : rs2Step delay s tmin ev with _ | ⟨s1, em⟩ | em
    · simp [rsProc, hstep] at hok
    · simp only [rsProc, hstep] at hok ⊢
      rw [ih _ _ hok]
      exact rs2Step_spec_step evs hstep
    · simp only [rsProc, hstep] at hok ⊢
      obtain ⟨now, rfl, rfl⟩ := rs2Step_stop_cases hstep
      have hevs : evs = [] := by simpa using hok
      subst hevs
      simp [rsOutputsSpec]

lemma rs1_outputs_spec (delay : Nat) :
    ∀ (evs : List RSEvent) (s : RSState) (tmin : Nat),
      (rsProc (rs1Step delay) s tmin evs).ok = true →
      (rsProc (rs1Step delay) s tmin evs).outputs = rsOutputsSpec (rsPending s.phase) evs := by
  intro evs
  induction evs with
  | nil => intro s tmin _; rfl
  | cons ev evs ih =>
    intro s tmin hok
    rcases hstep : rs1Step delay s tmin ev with _ | ⟨s1, em⟩ | em
    · simp [rsProc, hstep] at hok
    · simp only [rsProc, hstep] at hok ⊢
      rw [ih _ _ hok]
      exact rs1Step_spec_step evs hstep
    · simp only [rsProc, hstep] at hok ⊢
      obtain ⟨now, rfl, rfl⟩ := rs1Step_stop_cases hstep
      have hevs : evs = [] := by simpa using hok
      subst hevs
      simp [rsOutputsSpec]

/-! ### At most one live connection -/

/-- The connection-count invariant: a live connection exists exactly while
the supervisor is streaming from it. -/
def rsConnsOK (s : RSState) : Prop :=
  match s.phase with
  | RSPhase.streaming _ => s.conns = 1
  | _ => s.conns = 0

lemma rs2Step_conns_step {delay tmin : Nat} {s s' : RSState} {em : Option EnvelopeOrError}
    {ev : RSEvent} (h : rs2Step delay s tmin ev = RSRes.cont s' em) (hc : rsConnsOK s) :
    rsConnsOK s' := by
  obtain ⟨ht, hcc⟩ := rs2Step_cases h
  rcases hcc with ⟨a, rfl, hp, rfl, rfl⟩ | ⟨a, b, rfl, hp, rfl, rfl⟩ |
      ⟨a, b, rfl, hp, rfl, rfl⟩ | ⟨a, rfl, hp, rfl, rfl⟩ | ⟨a, b, rfl, hp, rfl, rfl⟩ |
      ⟨a, b, rfl, hp, rfl, rfl⟩ | ⟨a, b, rfl, hp, hd, rfl, rfl⟩ <;>
    simp_all [rsConnsOK]

lemma rs1Step_conns_step {delay tmin : Nat} {s s' : RSState} {em : Option EnvelopeOrError}
    {ev : RSEvent} (h : rs1Step delay s tmin ev = RSRes.cont s' em) (hc : rsConnsOK s) :
    rsConnsOK s' := by
  cases hev : ev with
  | inClosed now =>
    subst hev
    cases hp : s.phase with
    | streaming buf =>
      cases buf with
      | none =>
        simp only [rs1Step, hp] at h
        split at h
        · injection h with h1 h2
          subst h1
          simp_all [rsConnsOK]
        · cases h
      | some u0 => simp only [rs1Step, hp] at h; cases h
    | connecting => simp only [rs1Step, hp] at h; cases h
    | errSend e0 => simp only [rs1Step, hp] at h; cases h
    | delaying t => simp only [rs1Step, hp] at h; cases h
  | factoryOk now => subst hev; simp only [rs1Step] at h; exact rs2Step_conns_step h hc
  | factoryErr e now => subst hev; simp only [rs1Step] at h; exact rs2Step_conns_step h hc
  | recvUnit u now => subst hev; simp only [rs1Step] at h; exact rs2Step_conns_step h hc
  | sendDone now => subst hev; simp only [rs1Step] at h; exact rs2Step_conns_step h hc
  | delayDone now => subst hev; simp only [rs1Step] at h; exact rs2Step_conns_step h hc
  | cancel now => subst hev; simp only [rs1Step] at h; exact rs2Step_conns_step h hc

lemma rs2_conns_inv (delay : Nat) :
    ∀ (evs : List RSEvent) (s : RSState) (tmin : Nat) (s' : RSState) (tmin' : Nat),
      rsConnsOK s →
      (rsProc (rs2Step delay) s tmin evs).final = some (s', tmin') → rsConnsOK s' := by
  intro evs
  induction evs with
  | nil =>
    intro s tmin s' tmin' hc hf
    simp only [rsProc, Option.some.injEq, Prod.mk.injEq] at hf
    obtain ⟨rfl, rfl⟩ := hf
    exact hc
  | cons ev evs ih =>
    intro s tmin s' tmin' hc hf
    rcases hstep : rs2Step delay s tmin ev with _ | ⟨s1, em⟩ | em
    · simp [rsProc, hstep] at hf
    · simp only [rsProc, hstep] at hf
      exact ih _ _ _ _ (rs2Step_conns_step hstep hc) hf
    · simp [rsProc, hstep] at hf

lemma rs1_conns_inv (delay : Nat) :
    ∀ (evs : List RSEvent) (s : RSState) (tmin : Nat) (s' : RSState) (tmin' : Nat),
      rsConnsOK s →
      (rsProc (rs1Step delay) s tmin evs).final = some (s', tmin') → rsConnsOK s' := by
  intro evs
  induction evs with
  | nil =>
    intro s tmin s' tmin' hc hf
    simp only [rsProc, Option.some.injEq, Prod.mk.injEq] at hf
    obtain ⟨rfl, rfl⟩ := hf
    exact hc
  | cons ev evs ih =>
    intro s tmin s' tmin' hc hf
    rcases hstep : rs1Step delay s tmin ev with _ | ⟨s1, em⟩ | em
    · simp [rsProc, hstep] at hf
    · simp only [rsProc, hstep] at hf
      exact ih _ _ _ _ (rs1Step_conns_step hstep hc) hf
    · simp [rsProc, hstep] at hf

/-! ### The inter-attempt delay of the second variant -/

lemma rs2_calls_gap (delay : Nat) :
    ∀ (evs : List RSEvent) (s : RSState) (tmin lc : Nat),
      lc ≤ tmin →
      (∀ t, s.phase = RSPhase.delaying t → lc ≤ t) →
      (rsProc (rs2Step delay) s tmin evs).ok = true →
      List.Chain' (fun a b => a + delay ≤ b)
        (lc :: (rsProc (rs2Step delay) s tmin evs).calls) := by
  intro evs
  induction evs with
  | nil => intro s tmin lc _ _ _; simp [rsProc]
  | cons ev evs ih =>
    intro s tmin lc hlt hdel hok
    rcases hstep : rs2Step delay s tmin ev with _ | ⟨s1, em⟩ | em
    · simp [rsProc, hstep] at hok
    · simp only [rsProc, hstep] at hok ⊢
      obtain ⟨ht, hcc⟩ := rs2Step_cases hstep
      by_cases hcon : s1.phase = RSPhase.connecting
      · rw [if_pos hcon]
        rcases hcc with ⟨a, rfl, hp, rfl, rfl⟩ | ⟨a, b, rfl, hp, rfl, rfl⟩ |
            ⟨a, b, rfl, hp, rfl, rfl⟩ | ⟨a, rfl, hp, rfl, rfl⟩ | ⟨a, b, rfl, hp, rfl, rfl⟩ |
            ⟨a, b, rfl, hp, rfl, rfl⟩ | ⟨a, b, rfl, hp, hd, rfl, rfl⟩ <;>
          try simp at hcon
        -- only the delayDone transition targets `connecting`
        simp only [List.singleton_append, List.chain'_cons, RSEvent.time]
        have hlca : lc ≤ a := hdel a hp
        refine ⟨by omega, ?_⟩
        refine ih _ _ _ (le_refl _) ?_ hok
        intro t htd
        simp at htd
      · rw [if_neg hcon]
        simp only [List.nil_append]
        refine ih _ _ _ (le_trans hlt ht) ?_ hok
        intro t htd
        rcases hcc with ⟨a, rfl, hp, rfl, rfl⟩ | ⟨a, b, rfl, hp, rfl, rfl⟩ |
            ⟨a, b, rfl, hp, rfl, rfl⟩ | ⟨a, rfl, hp, rfl, rfl⟩ | ⟨a, b, rfl, hp, rfl, rfl⟩ |
            ⟨a, b, rfl, hp, rfl, rfl⟩ | ⟨a, b, rfl, hp, hd, rfl, rfl⟩ <;>
          simp_all [RSEvent.time] <;> omega
    · simp only [rsProc, hstep]
      simp

/-! ### The tagged-union invariant along supervisor outputs -/

lemma rsOutputsSpec_oneOf :
    ∀ (evs : List RSEvent) (p : Option EnvelopeOrError),
      (∀ u, p = some u → oneOf u) →
      (∀ u ∈ rsRecvUnits evs, oneOf u) →
      ∀ u ∈ rsOutputsSpec p evs, oneOf u := by
  intro evs
  induction evs with
  | nil => intro p _ _ u hu; simp [rsOutputsSpec] at hu
  | cons ev evs ih =>
    intro p hp hr u hu
    cases ev with
    | factoryErr e now =>
      simp only [rsOutputsSpec] at hu
      refine ih _ ?_ (fun v hv => hr v (by simp [rsRecvUnits, hv])) u hu
      intro v hv
      injection hv with hv
      subst hv
      exact Or.inr ⟨rfl, rfl⟩
    | recvUnit u0 now =>
      simp only [rsOutputsSpec] at hu
      refine ih _ ?_ (fun v hv => hr v (by simp [rsRecvUnits, hv])) u hu
      intro v hv
      injection hv with hv
      subst hv
      exact hr u0 (by simp [rsRecvUnits])
    | sendDone now =>
      simp only [rsOutputsSpec] at hu
      rcases List.mem_append.1 hu with hu | hu
      · cases p with
        | none => simp at hu
        | some v =>
          simp only [Option.toList_some, List.mem_singleton] at hu
          subst hu
          exact hp u rfl
      · exact ih none (by intro v hv; cases hv)
          (fun v hv => hr v (by simp [rsRecvUnits, hv])) u hu
    | factoryOk now =>
      simp only [rsOutputsSpec] at hu
      exact ih p hp (fun v hv => hr v (by simp [rsRecvUnits, hv])) u hu
    | inClosed now =>
      simp only [rsOutputsSpec] at hu
      exact ih p hp (fun v hv => hr v (by simp [rsRecvUnits, hv])) u hu
    | delayDone now =>
      simp only [rsOutputsSpec] at hu
      exact ih p hp (fun v hv => hr v (by simp [rsRecvUnits, hv])) u hu
    | cancel now =>
      simp only [rsOutputsSpec] at hu
      exact ih p hp (fun v hv => hr v (by simp [rsRecvUnits, hv])) u hu

/-! ## Claim theorems on the reconnecting supervisor -/

/-- C4: a factory error puts the supervisor into the error-sending phase with
nothing emitted; the only forwarding step out of that phase emits exactly one
unit, whose `Err` wraps the factory error under the prefix "get stream", and
enters the delay phase at the send's instant; globally, successive factory
invocations of the supervisor are always at least the configured delay apart;
and on the concrete error-then-retry schedule exactly one wrapped unit is
emitted and the next invocation happens exactly `delay` later. -/
theorem c4_factory_error_retry :
    (∀ (delay tmin : Nat) (s s' : RSState) (e : GoError) (now : Nat)
        (em : Option EnvelopeOrError),
      s.phase = RSPhase.errSend e →
      rs2Step delay s tmin (RSEvent.sendDone now) = RSRes.cont s' em →
      em = some ⟨none, some (GoError.wrap "get stream" e)⟩ ∧
        s'.phase = RSPhase.delaying now) ∧
    (∀ (delay tmin : Nat) (s s' : RSState) (e : GoError) (now : Nat)
        (em : Option EnvelopeOrError),
      rs2Step delay s tmin (RSEvent.factoryErr e now) = RSRes.cont s' em →
      em = none ∧ s'.phase = RSPhase.errSend e) ∧
    (∀ (delay : Nat) (evs : List RSEvent),
      (rsProc (rs2Step delay) rsInit 0 evs).ok = true →
      List.Chain' (fun a b => a + delay ≤ b)
        (0 :: (rsProc (rs2Step delay) rsInit 0 evs).calls)) ∧
    (∀ (d : Nat) (e : GoError),
      (rsProc (rs2Step d) rsInit 0
          [RSEvent.factoryErr e 0, RSEvent.sendDone 0, RSEvent.delayDone d,
            RSEvent.factoryOk d]).ok = true ∧
      (rsProc (rs2Step d) rsInit 0
          [RSEvent.factoryErr e 0, RSEvent.sendDone 0, RSEvent.delayDone d,
            RSEvent.factoryOk d]).outputs =
        [⟨none, some (GoError.wrap "get stream" e)⟩] ∧
      (rsProc (rs2Step d) rsInit 0
          [RSEvent.factoryErr e 0, RSEvent.sendDone 0, RSEvent.delayDone d,
            RSEvent.factoryOk d]).calls = [d]) := by
  refine ⟨?_, ?_, ?_, ?_⟩
  · intro delay tmin s s' e now em hphase h
    simp only [rs2Step, hphase] at h
    split at h
    · injection h with h1 h2
      subst h1
      exact ⟨h2.symm, rfl⟩
    · cases h
  · intro delay tmin s s' e now em h
    cases hp : s.phase with
    | connecting =>
      simp only [rs2Step, hp] at h
      split at h
      · injection h with h1 h2
        subst h1
        exact ⟨h2.symm, rfl⟩
      · cases h
    | errSend e0 => simp only [rs2Step, hp] at h; cases h
    | streaming buf => simp only [rs2Step, hp] at h; cases h
    | delaying t => simp only [rs2Step, hp] at h; cases h
  · intro delay evs hok
    exact rs2_calls_gap delay evs rsInit 0 0 (le_refl 0)
      (fun t ht => by simp [rsInit] at ht) hok
  · intro d e
    refine ⟨?_, ?_, ?_⟩ <;> simp [rsProc, rs2Step, rsInit, RSEvent.time]

/-- Witness for C4 at concrete states: the error-send step for `io.EOF`, the
factory-error step, and the gap chain of the empty schedule. -/
theorem c4_factory_error_retry_witness :
    ((some ⟨none, some (GoError.wrap "get stream" GoError.eof)⟩ :
        Option EnvelopeOrError) =
          some ⟨none, some (GoError.wrap "get stream" GoError.eof)⟩ ∧
      (⟨RSPhase.delaying 2, 0⟩ : RSState).phase = RSPhase.delaying 2) ∧
      ((none : Option EnvelopeOrError) = none ∧
        (⟨RSPhase.errSend GoError.eof, 0⟩ : RSState).phase =
          RSPhase.errSend GoError.eof) ∧
      List.Chain' (fun a b => a + 5 ≤ b)
        (0 :: (rsProc (rs2Step 5) rsInit 0 []).calls) :=
  ⟨c4_factory_error_retry.1 5 1 ⟨RSPhase.errSend GoError.eof, 0⟩ ⟨RSPhase.delaying 2, 0⟩
      GoError.eof 2 (some ⟨none, some (GoError.wrap "get stream" GoError.eof)⟩) rfl
      (by decide),
    c4_factory_error_retry.2.1 5 0 rsInit ⟨RSPhase.errSend GoError.eof, 0⟩ GoError.eof 3
      none (by decide),
    c4_factory_error_retry.2.2.1 5 [] rfl⟩

/-- C6: in both `reconnectStream` variants, every reachable supervisor state
has at most one live underlying connection, and whenever the supervisor is
invoking the factory, delaying, or offering a factory error, no connection is
live — so a new attempt starts only after the previous stream's channel
closed, i.e. after its goroutine returned, cancelled its derived context and
closed the transport. -/
theorem c6_single_connection :
    (∀ (delay : Nat) (evs : List RSEvent) (s' : RSState) (tmin' : Nat),
      (rsProc (rs2Step delay) rsInit 0 evs).final = some (s', tmin') →
      s'.conns ≤ 1 ∧
        (s'.phase = RSPhase.connecting → s'.conns = 0) ∧
        (∀ t, s'.phase = RSPhase.delaying t → s'.conns = 0) ∧
        (∀ e, s'.phase = RSPhase.errSend e → s'.conns = 0)) ∧
    (∀ (delay : Nat) (evs : List RSEvent) (s' : RSState) (tmin' : Nat),
      (rsProc (rs1Step delay) rsInit 0 evs).final = some (s', tmin') →
      s'.conns ≤ 1 ∧
        (s'.phase = RSPhase.connecting → s'.conns = 0) ∧
        (∀ t, s'.phase = RSPhase.delaying t → s'.conns = 0) ∧
        (∀ e, s'.phase = RSPhase.errSend e → s'.conns = 0)) := by
  have hconc : ∀ s' : RSState, rsConnsOK s' →
      s'.conns ≤ 1 ∧
        (s'.phase = RSPhase.connecting → s'.conns = 0) ∧
        (∀ t, s'.phase = RSPhase.delaying t → s'.conns = 0) ∧
        (∀ e, s'.phase = RSPhase.errSend e → s'.conns = 0) := by
    intro s' hc
    cases hps : s'.phase <;> simp_all [rsConnsOK]
  have hinit : rsConnsOK rsInit := rfl
  exact ⟨fun delay evs s' tmin' hf => hconc s' (rs2_conns_inv delay evs rsInit 0 s' tmin' hinit hf),
    fun delay evs s' tmin' hf => hconc s' (rs1_conns_inv delay evs rsInit 0 s' tmin' hinit hf)⟩

/-- Witness for C6: after a successful connection whose stream then closes,
the second variant sits in the delay phase with zero live connections. -/
theorem c6_single_connection_witness :
    (⟨RSPhase.delaying 0, 0⟩ : RSState).conns ≤ 1 ∧
      ((⟨RSPhase.delaying 0, 0⟩ : RSState).phase = RSPhase.connecting →
        (⟨RSPhase.delaying 0, 0⟩ : RSState).conns = 0) ∧
      (∀ t, (⟨RSPhase.delaying 0, 0⟩ : RSState).phase = RSPhase.delaying t →
        (⟨RSPhase.delaying 0, 0⟩ : RSState).conns = 0) ∧
      (∀ e, (⟨RSPhase.delaying 0, 0⟩ : RSState).phase = RSPhase.errSend e →
        (⟨RSPhase.delaying 0, 0⟩ : RSState).conns = 0) :=
  c6_single_connection.1 5 [RSEvent.factoryOk 0, RSEvent.inClosed 0]
    ⟨RSPhase.delaying 0, 0⟩ 0 (by decide)

/-- C7: every unit offered by `decodeEnvelopes` has exactly one of
`{Envelope, Err}` set; every unit the envelope stream emits under any valid
schedule whose received units satisfy the invariant satisfies it too; and
every unit the reconnecting supervisor emits — forwarded units and its own
synthetic "get stream" error units alike — satisfies it, given the active
sources deliver only such units. -/
theorem c7_tagged_union :
    (∀ (bs : ByteStream) (n : Nat), oneOf (decodeUnit bs n)) ∧
    (∀ (pt : Nat) (evs : List ESEvent),
      esValid pt (esInit pt) 0 evs = true →
      (∀ u ∈ recvPayloads evs, oneOf u) →
      ∀ u ∈ (esRun pt (esInit pt) evs).outputs, oneOf u) ∧
    (∀ (delay : Nat) (evs : List RSEvent),
      (rsProc (rs2Step delay) rsInit 0 evs).ok = true →
      (∀ u ∈ rsRecvUnits evs, oneOf u) →
      ∀ u ∈ (rsProc (rs2Step delay) rsInit 0 evs).outputs, oneOf u) := by
  refine ⟨?_, ?_, ?_⟩
  · intro bs n
    cases h : bs.parses[n]? <;> simp [decodeUnit, oneOf, h]
  · intro pt evs hv hr u hu
    rcases esRun_outputs_origin evs (esInit pt) 0 hv u hu with ⟨hready, _⟩ | hmem
    · simp [esInit] at hready
    · exact hr u hmem
  · intro delay evs hok hr u hu
    rw [rs2_outputs_spec delay evs rsInit 0 hok] at hu
    refine rsOutputsSpec_oneOf evs (rsPending rsInit.phase) ?_ hr u hu
    intro v hv
    simp [rsInit, rsPending] at hv

/-- Witness for C7: the decoder unit of the empty stream, a one-PING envelope
stream schedule, and the supervisor schedule that wraps one factory error. -/
theorem c7_tagged_union_witness :
    oneOf (decodeUnit ⟨[], Tail.eof⟩ 0) ∧
      (∀ u ∈ (esRun 1 (esInit 1) (canonFwd [pingUnit])).outputs, oneOf u) ∧
      ∀ u ∈ (rsProc (rs2Step 5) rsInit 0
          [RSEvent.factoryErr GoError.eof 0, RSEvent.sendDone 0]).outputs, oneOf u :=
  ⟨c7_tagged_union.1 ⟨[], Tail.eof⟩ 0,
    c7_tagged_union.2.1 1 (canonFwd [pingUnit]) (by decide)
      (by
        intro u hu
        simp only [canonFwd, recvPayloads, List.mem_singleton] at hu
        subst hu
        exact Or.inl ⟨rfl, rfl⟩),
    c7_tagged_union.2.2 5 [RSEvent.factoryErr GoError.eof 0, RSEvent.sendDone 0]
      (by decide) (by intro u hu; simp [rsRecvUnits] at hu)⟩

/-- C10 counterexample: the schedule in which the factory succeeds at time 0,
the stream closes at time 0 and the factory is invoked again at time 0 is a
possible execution of the sub-context variant (two factory invocations with
zero elapsed time between them), but is impossible for the other variant
(with delay 5), which must enter its delay wait first — so the two
implementations do not perform factory invocations at the same points after
an active source closes. -/
theorem c10_reconnect_variants_counterexample :
    (rsProc (rs1Step 5) rsInit 0
        [RSEvent.factoryOk 0, RSEvent.inClosed 0, RSEvent.factoryOk 0]).ok = true ∧
      0 :: (rsProc (rs1Step 5) rsInit 0
        [RSEvent.factoryOk 0, RSEvent.inClosed 0, RSEvent.factoryOk 0]).calls = [0, 0] ∧
      (rsProc (rs2Step 5) rsInit 0
        [RSEvent.factoryOk 0, RSEvent.inClosed 0, RSEvent.factoryOk 0]).ok = false := by
  decide

/-- C10 amended: on every schedule possible for both variants the two
implementations emit the same sequence of units; the parent-context variant
always keeps at least the configured delay between successive factory
invocations, and the sub-context variant does so on the factory-error path
(error send enters the delay phase, whose exit requires the delay to have
elapsed before the next invocation); but after an active source closes the
sub-context variant re-invokes the factory at that same instant with no
delay. -/
theorem c10_variants_agree_except_close_delay :
    (∀ (delay : Nat) (evs : List RSEvent) (s : RSState) (tmin : Nat),
      (rsProc (rs1Step delay) s tmin evs).ok = true →
      (rsProc (rs2Step delay) s tmin evs).ok = true →
      (rsProc (rs1Step delay) s tmin evs).outputs =
        (rsProc (rs2Step delay) s tmin evs).outputs) ∧
    (∀ (delay : Nat) (evs : List RSEvent),
      (rsProc (rs2Step delay) rsInit 0 evs).ok = true →
      List.Chain' (fun a b => a + delay ≤ b)
        (0 :: (rsProc (rs2Step delay) rsInit 0 evs).calls)) ∧
    (∀ (delay tmin : Nat) (s s' : RSState) (e : GoError) (now : Nat)
        (em : Option EnvelopeOrError),
      s.phase = RSPhase.errSend e →
      rs1Step delay s tmin (RSEvent.sendDone now) = RSRes.cont s' em →
      s'.phase = RSPhase.delaying now) ∧
    (∀ (delay tmin : Nat) (s s' : RSState) (t now : Nat) (em : Option EnvelopeOrError),
      s.phase = RSPhase.delaying t →
      rs1Step delay s tmin (RSEvent.delayDone now) = RSRes.cont s' em →
      t + delay ≤ now ∧ s'.phase = RSPhase.connecting) ∧
    (∀ (delay tmin now : Nat) (s : RSState),
      s.phase = RSPhase.streaming none → tmin ≤ now →
      rs1Step delay s tmin (RSEvent.inClosed now) =
        RSRes.cont ⟨RSPhase.connecting, s.conns - 1⟩ none) := by
  refine ⟨?_, ?_, ?_, ?_, ?_⟩
  · intro delay evs s tmin h1 h2
    rw [rs1_outputs_spec delay evs s tmin h1, rs2_outputs_spec delay evs s tmin h2]
  · intro delay evs hok
    exact rs2_calls_gap delay evs rsInit 0 0 (le_refl 0)
      (fun t ht => by simp [rsInit] at ht) hok
  · intro delay tmin s s' e now em hphase h
    simp only [rs1Step, rs2Step, hphase] at h
    split at h
    · injection h with h1 h2
      subst h1
      rfl
    · cases h
  · intro delay tmin s s' t now em hphase h
    simp only [rs1Step, rs2Step, hphase] at h
    split at h
    · injection h with h1 h2
      subst h1
      exact ⟨by omega, rfl⟩
    · cases h
  · intro delay tmin now s hphase htmin
    simp [rs1Step, hphase, htmin]

/-- Witness for C10's amended statement: both variants produce the single
wrapped error unit on the common error-then-retry schedule; the sub-context
variant's delay exit at time 5 with delay 5 implies the gap; and a stream
closing at time 7 re-enters the factory at time 7. -/
theorem c10_variants_agree_witness :
    ((rsProc (rs1Step 5) rsInit 0
        [RSEvent.factoryErr GoError.eof 0, RSEvent.sendDone 0, RSEvent.delayDone 5,
          RSEvent.factoryOk 5]).outputs =
      (rsProc (rs2Step 5) rsInit 0
        [RSEvent.factoryErr GoError.eof 0, RSEvent.sendDone 0, RSEvent.delayDone 5,
          RSEvent.factoryOk 5]).outputs) ∧
      (0 + 5 ≤ 5 ∧ (⟨RSPhase.connecting, 0⟩ : RSState).phase = RSPhase.connecting) ∧
      rs1Step 5 ⟨RSPhase.streaming none, 1⟩ 0 (RSEvent.inClosed 7) =
        RSRes.cont ⟨RSPhase.connecting, (⟨RSPhase.streaming none, 1⟩ : RSState).conns - 1⟩
          none :=
  ⟨c10_variants_agree_except_close_delay.1 5
      [RSEvent.factoryErr GoError.eof 0, RSEvent.sendDone 0, RSEvent.delayDone 5,
        RSEvent.factoryOk 5] rsInit 0 (by decide) (by decide),
    c10_variants_agree_except_close_delay.2.2.2.1 5 0 ⟨RSPhase.delaying 0, 0⟩
      ⟨RSPhase.connecting, 0⟩ 0 5 none rfl (by decide),
    c10_variants_agree_except_close_delay.2.2.2.2 5 0 7 ⟨RSPhase.streaming none, 1⟩
      rfl (by decide)⟩

end Pipeline
